import Mathlib

/-!
# Verification of the seam class-attribute AST query/mutation engine

A shallow embedding of `apps/seam-server/src/ast.ts`: the two exported
operations `getClassNameExpression` and `updateClassNameWithAST`, built on a
parse / mutate / print cycle over JSX-like source text.

The TypeScript code works on full TSX files through Babel.  The embedding
models the fragment of that grammar the engine actually inspects and mutates:

* a source file is a sequence of self-closing JSX elements
  (`<Name attr="lit" attr2=\x7bexpr\x7d />`), separated by whitespace;
* an element name is a plain identifier (`Div`) or a member name (`Foo.Bar`),
  mirroring Babel's `JSXIdentifier` / `JSXMemberExpression` distinction that
  the code branches on with `t.isJSXIdentifier`;
* an attribute value is a string literal (`StringLiteral`) or an expression
  container (`JSXExpressionContainer`), the two cases the code inspects;
* an expression is a primary (string literal or identifier) or a conditional
  `c ? t : e` over primaries, mirroring the `isConditionalExpression` /
  `isStringLiteral` / other classification of `parser.parseExpression`.

The printer produces one canonical text per tree, standing in for Babel
`generate` (which reprints the whole program from the AST); the parser is
whitespace-lenient, so non-canonical files parse but do not reprint
byte-identically — exactly the behaviour of the parse→generate pipeline.
-/

namespace Seam

/-- A primary expression: a single-quoted string literal or an identifier. -/
inductive Prim where
  | str (s : String)
  | id (s : String)
  deriving Repr, DecidableEq

/-- An expression, as classified by the writer: Babel `ConditionalExpression`
(`c ? t : e`, modelled over primaries) or a primary. -/
inductive Expr where
  | prim (p : Prim)
  | cond (c t e : Prim)
  deriving Repr, DecidableEq

/-- A JSX attribute value: Babel `StringLiteral` or `JSXExpressionContainer`. -/
inductive AttrValue where
  | lit (s : String)
  | container (e : Expr)
  deriving Repr, DecidableEq

/-- A JSX attribute (`JSXAttribute` with a `JSXIdentifier` name). -/
structure Attr where
  name : String
  value : AttrValue
  deriving Repr, DecidableEq

/-- A JSX element name: `JSXIdentifier` or `JSXMemberExpression`. -/
inductive ElemName where
  | ident (s : String)
  | member (obj prop : String)
  deriving Repr, DecidableEq

/-- One JSX opening element (`JSXOpeningElement`): name plus attribute list. -/
structure Element where
  name : ElemName
  attrs : List Attr
  deriving Repr, DecidableEq

/-! ## Printer (model of Babel `generate`) -/

/-- Canonical characters of a primary. -/
def printPrimChars : Prim → List Char
  | .str s => '\'' :: s.data ++ ['\'']
  | .id s => s.data

/-- Canonical characters of an expression. -/
def printExprChars : Expr → List Char
  | .prim p => printPrimChars p
  | .cond c t e =>
      printPrimChars c ++ ' ' :: '?' :: ' ' :: printPrimChars t
        ++ ' ' :: ':' :: ' ' :: printPrimChars e

/-- Canonical characters of an attribute value. -/
def printValueChars : AttrValue → List Char
  | .lit s => '"' :: s.data ++ ['"']
  | .container e => '\x7b' :: printExprChars e ++ ['\x7d']

/-- Canonical characters of one attribute (`name=value`). -/
def printAttrChars (a : Attr) : List Char :=
  a.name.data ++ '=' :: printValueChars a.value

/-- Canonical characters of an attribute list, each attribute preceded by a
single space. -/
def printAttrsChars : List Attr → List Char
  | [] => []
  | a :: rest => ' ' :: printAttrChars a ++ printAttrsChars rest

/-- Canonical characters of an element name. -/
def printNameChars : ElemName → List Char
  | .ident s => s.data
  | .member o p => o.data ++ '.' :: p.data

/-- Canonical characters of one self-closing element. -/
def printElemChars (el : Element) : List Char :=
  '<' :: printNameChars el.name ++ printAttrsChars el.attrs ++ [' ', '/', '>']

/-- Canonical characters of a whole file: each element on its own line. -/
def printFileChars : List Element → List Char
  | [] => []
  | el :: rest => printElemChars el ++ '\n' :: printFileChars rest

/-- Canonical text of a whole file (the model of `generate(ast, …).code`). -/
def printFile (els : List Element) : String := ⟨printFileChars els⟩

/-! ## Parser (model of `parser.parse` / `parser.parseExpression`) -/

/-- Identifier characters. -/
def isIdChar (c : Char) : Bool := c.isAlpha || c.isDigit

/-- Whitespace characters recognised between tokens. -/
def isWsChar (c : Char) : Bool := c = ' ' || c = '\n' || c = '\t' || c = '\r'

/-- Drop leading whitespace. -/
def skipWs (cs : List Char) : List Char := cs.dropWhile isWsChar

/-- Consume one nonempty identifier. -/
def takeIdent (cs : List Char) : Option (String × List Char) :=
  match cs.takeWhile isIdChar with
  | [] => none
  | c :: l => some (⟨c :: l⟩, cs.dropWhile isIdChar)

/-- Consume one primary expression. -/
def parsePrim (cs : List Char) : Option (Prim × List Char) :=
  match cs with
  | [] => none
  | c :: rest =>
    if c = '\'' then
      match rest.dropWhile (fun d => d != '\'') with
      | [] => none
      | d :: r2 =>
        if d = '\'' then some (.str ⟨rest.takeWhile (fun d => d != '\'')⟩, r2)
        else none
    else
      match takeIdent cs with
      | some (s, r) => some (.id s, r)
      | none => none

/-- Expect one specific character at the head of the input. -/
def expectChar (c : Char) : List Char → Option (List Char)
  | [] => none
  | d :: r => if d = c then some r else none

/-- Consume one expression: a primary, optionally followed by `? prim : prim`. -/
def parseExprCore (cs : List Char) : Option (Expr × List Char) :=
  match parsePrim cs with
  | none => none
  | some (p, rest) =>
    match expectChar '?' (skipWs rest) with
    | none => some (.prim p, rest)
    | some r2 =>
      match parsePrim (skipWs r2) with
      | none => none
      | some (t, r3) =>
        match expectChar ':' (skipWs r3) with
        | none => none
        | some r4 =>
          match parsePrim (skipWs r4) with
          | none => none
          | some (e, r5) => some (.cond p t e, r5)

/-- `parser.parseExpression(newClassName, …)`: parse a standalone expression,
requiring the whole string to be consumed; `none` models the thrown
parse error. -/
def parseExpression (s : String) : Option Expr :=
  match parseExprCore (skipWs s.data) with
  | some (e, rest) => if skipWs rest = [] then some e else none
  | none => none

/-- Consume one attribute value: `"…"` or `\x7b expr \x7d`. -/
def parseValue (cs : List Char) : Option (AttrValue × List Char) :=
  match cs with
  | [] => none
  | c :: rest =>
    if c = '"' then
      match rest.dropWhile (fun d => d != '"') with
      | [] => none
      | d :: r2 =>
        if d = '"' then some (.lit ⟨rest.takeWhile (fun d => d != '"')⟩, r2)
        else none
    else if c = '\x7b' then
      match parseExprCore (skipWs rest) with
      | some (e, r2) =>
        match expectChar '\x7d' (skipWs r2) with
        | some r3 => some (.container e, r3)
        | none => none
      | none => none
    else none

/-- Consume one `name=value` attribute. -/
def parseAttr (cs : List Char) : Option (Attr × List Char) :=
  match takeIdent cs with
  | none => none
  | some (n, r) =>
    match expectChar '=' r with
    | none => none
    | some r2 =>
      match parseValue r2 with
      | some (v, r3) => some (⟨n, v⟩, r3)
      | none => none

/-- Consume attributes until the closing `/>`.  The fuel bounds the number of
attributes; callers pass the remaining input length, which always suffices
because every attribute consumes at least one character. -/
def parseAttrs : Nat → List Char → Option (List Attr × List Char)
  | 0, _ => none
  | fuel + 1, cs =>
    let cs1 := skipWs cs
    if cs1.take 2 = ['/', '>'] then some ([], cs1.drop 2)
    else
      match parseAttr cs1 with
      | some (a, r2) =>
        match parseAttrs fuel r2 with
        | some (rest, r3) => some (a :: rest, r3)
        | none => none
      | none => none

/-- Consume one element name: identifier, optionally `.identifier`. -/
def parseElemName (cs : List Char) : Option (ElemName × List Char) :=
  match takeIdent cs with
  | none => none
  | some (s, r) =>
    match expectChar '.' r with
    | none => some (.ident s, r)
    | some r2 =>
      match takeIdent r2 with
      | some (p, r3) => some (.member s p, r3)
      | none => none

/-- Consume a whole file: whitespace-separated self-closing elements.  The
fuel bounds the number of elements. -/
def parseElems : Nat → List Char → Option (List Element)
  | 0, _ => none
  | fuel + 1, cs =>
    match skipWs cs with
    | [] => some []
    | c :: rest =>
      if c = '<' then
        match parseElemName rest with
        | some (n, r2) =>
          match parseAttrs (r2.length + 1) r2 with
          | some (attrs, r3) =>
            match parseElems fuel r3 with
            | some els => some (⟨n, attrs⟩ :: els)
            | none => none
          | none => none
        | none => none
      else none

/-- `parser.parse(sourceCode, …)`: `none` models the thrown syntax error. -/
def parseFile (s : String) : Option (List Element) :=
  parseElems (s.data.length + 1) s.data

/-! ## The two operations of `ast.ts` -/

/-- The `find` / `findIndex` predicate: a `JSXAttribute` whose name is the
`JSXIdentifier` `className`. -/
def findCN : List Attr → Option Attr
  | [] => none
  | a :: rest => if a.name = "className" then some a else findCN rest

/-- What the reader reports for a found `className` attribute: the literal
value verbatim, or the expression container's expression printed back to
source text (`generate(expression, …).code`). -/
def renderAttr (a : Attr) : String :=
  match a.value with
  | .lit s => s
  | .container e => ⟨printExprChars e⟩

/-- The traversal body of `getClassNameExpression`, threading the mutable
`foundCount` and `classNameExpression` variables.  Faithful to the source:
skipped matches always increment `foundCount`, while a visited match
increments it only inside the `if (classNameAttr …)` branch. -/
def getLoop (tagName : String) (elementIndex : Option Nat) :
    List Element → Nat → Option String → Option String
  | [], _, acc => acc
  | el :: rest, foundCount, acc =>
    match el.name with
    | .member _ _ => getLoop tagName elementIndex rest foundCount acc
    | .ident n =>
      if n = tagName then
        match elementIndex with
        | some i =>
          if foundCount = i then
            match findCN el.attrs with
            | some a => getLoop tagName elementIndex rest (foundCount + 1) (some (renderAttr a))
            | none => getLoop tagName elementIndex rest foundCount acc
          else getLoop tagName elementIndex rest (foundCount + 1) acc
        | none =>
          match findCN el.attrs with
          | some a => getLoop tagName elementIndex rest (foundCount + 1) (some (renderAttr a))
          | none => getLoop tagName elementIndex rest foundCount acc
      else getLoop tagName elementIndex rest foundCount acc

/-- `getClassNameExpression`: parse, traverse, report; a parse error is caught
and surfaces as `null` (here `none`). -/
def getClassNameExpression (sourceCode tagName : String) (elementIndex : Option Nat) :
    Option String :=
  match parseFile sourceCode with
  | some els => getLoop tagName elementIndex els 0 none
  | none => none

/-- Replace-path classification of `newClassName` (attribute already exists):
conditional → expression container; string literal → the parsed literal;
any other shape or a parse error → the raw text as a literal. -/
def classifyReplace (newClassName : String) : AttrValue :=
  match parseExpression newClassName with
  | some (.cond c t e) => .container (.cond c t e)
  | some (.prim (.str s)) => .lit s
  | some (.prim (.id _)) => .lit newClassName
  | none => .lit newClassName

/-- Append-path classification of `newClassName` (attribute missing):
conditional → expression container; everything else, parsed or not, → the
raw text as a literal. -/
def classifyAppend (newClassName : String) : AttrValue :=
  match parseExpression newClassName with
  | some (.cond c t e) => .container (.cond c t e)
  | some (.prim _) => .lit newClassName
  | none => .lit newClassName

/-- Assign a new value to the first `className` attribute, in place
(`node.attributes[classNameIndex].value = …`). -/
def setFirstCN : List Attr → AttrValue → List Attr
  | [], _ => []
  | a :: rest, v =>
    if a.name = "className" then { a with value := v } :: rest
    else a :: setFirstCN rest v

/-- The per-element mutation of the writer: replace the existing `className`
value, or push a fresh `className` attribute at the end of the list. -/
def updateElement (newClassName : String) (el : Element) : Element :=
  match findCN el.attrs with
  | some _ => { el with attrs := setFirstCN el.attrs (classifyReplace newClassName) }
  | none => { el with attrs := el.attrs ++ [⟨"className", classifyAppend newClassName⟩] }

/-- The traversal body of `updateClassNameWithAST`, threading `foundCount` and
the `updated` flag.  Skipped matches increment `foundCount`; a visited match
is mutated, sets `updated`, and increments `foundCount` afterwards. -/
def updLoop (tagName newClassName : String) (elementIndex : Option Nat) :
    List Element → Nat → List Element × Bool
  | [], _ => ([], false)
  | el :: rest, foundCount =>
    match el.name with
    | .member _ _ =>
      let r := updLoop tagName newClassName elementIndex rest foundCount
      (el :: r.1, r.2)
    | .ident n =>
      if n = tagName then
        match elementIndex with
        | some i =>
          if foundCount = i then
            let r := updLoop tagName newClassName elementIndex rest (foundCount + 1)
            (updateElement newClassName el :: r.1, true)
          else
            let r := updLoop tagName newClassName elementIndex rest (foundCount + 1)
            (el :: r.1, r.2)
        | none =>
          let r := updLoop tagName newClassName elementIndex rest (foundCount + 1)
          (updateElement newClassName el :: r.1, true)
      else
        let r := updLoop tagName newClassName elementIndex rest foundCount
        (el :: r.1, r.2)

/-- `updateClassNameWithAST`: parse (rethrowing the parse error), traverse and
mutate, and regenerate the file only when something was updated; otherwise
return the original text. -/
def updateClassNameWithAST (sourceCode tagName newClassName : String)
    (elementIndex : Option Nat) : Except String String :=
  match parseFile sourceCode with
  | none => .error "AST parsing error"
  | some els =>
    let r := updLoop tagName newClassName elementIndex els 0
    if r.2 then .ok (printFile r.1) else .ok sourceCode

/-! ## Derived notions used by the statements -/

/-- Does this element match the locator's test
(`t.isJSXIdentifier(node.name) && node.name.name === tagName`)? -/
def isMatch (tagName : String) (el : Element) : Bool :=
  match el.name with
  | .ident n => n = tagName
  | .member _ _ => false

/-- The element at zero-based ordinal `i` among same-tag matches,
in document order. -/
def nthMatch (els : List Element) (tagName : String) (i : Nat) : Option Element :=
  (els.filter (isMatch tagName))[i]?

/-- Number of elements matching the tag name. -/
def countMatches (els : List Element) (tagName : String) : Nat :=
  (els.filter (isMatch tagName)).length

/-- Mutate exactly the match at ordinal `i`, leaving every other element
untouched — the intended effect of an indexed write. -/
def updateNthMatch (tagName newClassName : String) : List Element → Nat → List Element
  | [], _ => []
  | el :: rest, i =>
    if isMatch tagName el then
      if i = 0 then updateElement newClassName el :: rest
      else el :: updateNthMatch tagName newClassName rest (i - 1)
    else el :: updateNthMatch tagName newClassName rest i

/-- The `className` attributes of the matching elements, in document order. -/
def matchedCNs (els : List Element) (tagName : String) : List Attr :=
  (els.filter (isMatch tagName)).filterMap (fun el => findCN el.attrs)

/-- Is this element name a `JSXMemberExpression`? -/
def isMemberName : ElemName → Bool
  | .member _ _ => true
  | .ident _ => false

/-! ## Well-formedness: the trees the parser can produce -/

/-- A well-formed identifier: nonempty, all identifier characters. -/
def wfId (s : String) : Bool := !s.data.isEmpty && s.data.all isIdChar

/-- Well-formed primary: string contents contain no single quote. -/
def wfPrim : Prim → Bool
  | .str s => s.data.all (fun c => c != '\'')
  | .id s => wfId s

/-- Well-formed expression. -/
def wfExpr : Expr → Bool
  | .prim p => wfPrim p
  | .cond c t e => wfPrim c && wfPrim t && wfPrim e

/-- Well-formed attribute value: literal contents contain no double quote. -/
def wfValue : AttrValue → Bool
  | .lit s => s.data.all (fun c => c != '"')
  | .container e => wfExpr e

/-- Well-formed attribute. -/
def wfAttr (a : Attr) : Bool := wfId a.name && wfValue a.value

/-- Well-formed element name. -/
def wfName : ElemName → Bool
  | .ident s => wfId s
  | .member o p => wfId o && wfId p

/-- Well-formed element. -/
def wfElem (el : Element) : Bool := wfName el.name && el.attrs.all wfAttr

/-- Well-formed file. -/
def wfFile (els : List Element) : Bool := els.all wfElem

/-! ## Auxiliary definitions used by the statements and proofs -/

/-- The head of `r` (if any) fails the scan predicate `p`. -/
def headFails (p : Char → Bool) : List Char → Bool
  | [] => true
  | c :: _ => !p c

/-- The continuation after a complete expression: end of input or a closing
container brace. -/
def exprStop : List Char → Bool
  | [] => true
  | c :: _ => c = '\x7d'

/-- Does `pat` occur contiguously anywhere in the input? -/
def containsChars (pat : List Char) : List Char → Bool
  | [] => pat.isEmpty
  | c :: rest => pat.isPrefixOf (c :: rest) || containsChars pat rest

/-- The three-element tree of the C4 witness file. -/
def elsC4 : List Element :=
  [⟨.ident "Div", []⟩, ⟨.ident "Div", []⟩, ⟨.ident "Div", []⟩]

/-- The two-element tree of the C5 witness file. -/
def elsC5 : List Element :=
  [⟨.ident "Div", [⟨"className", .lit "x"⟩]⟩, ⟨.ident "Div", []⟩]

/-- The two-element tree of the C9 witness file. -/
def elsC9 : List Element :=
  [⟨.ident "Div", [⟨"className", .lit "a"⟩]⟩, ⟨.ident "Div", [⟨"className", .lit "b"⟩]⟩]

/-- Does the new value parse as a conditional expression? -/
def isCondParse (v : String) : Bool :=
  match parseExpression v with
  | some (.cond _ _ _) => true
  | _ => false

end Seam

namespace Seam

/-! ## Token-level lemmas -/

theorem takeWhile_append_all {p : Char → Bool} {l r : List Char}
    (hl : ∀ c ∈ l, p c = true) (hr : headFails p r = true) :
    (l ++ r).takeWhile p = l ∧ (l ++ r).dropWhile p = r := by
  induction l with
  | nil =>
    cases r with
    | nil => simp
    | cons c r' =>
      simp only [headFails, Bool.not_eq_true'] at hr
      simp [List.takeWhile, List.dropWhile, hr]
  | cons c l ih =>
    have hc := hl c (by simp)
    have ih' := ih (fun d hd => hl d (by simp [hd]))
    simp [List.takeWhile, List.dropWhile, hc, ih'.1, ih'.2]

theorem skipWs_append_all {l r : List Char}
    (hl : ∀ c ∈ l, isWsChar c = true) (hr : headFails isWsChar r = true) :
    skipWs (l ++ r) = r :=
  (takeWhile_append_all hl hr).2

theorem skipWs_not_ws {c : Char} {r : List Char} (h : isWsChar c = false) :
    skipWs (c :: r) = c :: r := by
  simp [skipWs, List.dropWhile, h]

theorem skipWs_ws {c : Char} {r : List Char} (h : isWsChar c = true) :
    skipWs (c :: r) = skipWs r := by
  simp [skipWs, List.dropWhile, h]

theorem takeIdent_print {s : String} {r : List Char}
    (hs : wfId s = true) (hr : headFails isIdChar r = true) :
    takeIdent (s.data ++ r) = some (s, r) := by
  obtain ⟨hne, hall⟩ := by simpa [wfId] using hs
  have h := takeWhile_append_all (p := isIdChar) (l := s.data) (r := r)
    (fun c hc => by simpa using hall c hc) hr
  unfold takeIdent
  rw [h.1, h.2]
  cases hd : s.data with
  | nil => simp [hd] at hne
  | cons c l =>
    simp only []
    rw [← hd]

theorem mem_takeWhile {p : Char → Bool} {l : List Char} :
    ∀ c ∈ l.takeWhile p, p c = true := by
  induction l with
  | nil => simp
  | cons a l ih =>
    by_cases h : p a
    · simp only [List.takeWhile, h]
      intro c hc
      rcases List.mem_cons.mp hc with rfl | hc
      · exact h
      · exact ih c hc
    · simp [List.takeWhile, h]

theorem takeIdent_sound {cs : List Char} {s : String} {r : List Char}
    (h : takeIdent cs = some (s, r)) : wfId s = true := by
  unfold takeIdent at h
  cases htw : cs.takeWhile isIdChar with
  | nil => rw [htw] at h; exact absurd h (by simp)
  | cons c l =>
    rw [htw] at h
    have hs : s = ⟨c :: l⟩ := by
      have := congrArg (Option.map Prod.fst) h
      simpa using this.symm
    subst hs
    have hall : ∀ d ∈ c :: l, isIdChar d = true := by
      rw [← htw]; exact mem_takeWhile
    simp only [wfId, Bool.and_eq_true]
    exact ⟨by simp, by simpa [List.all_eq_true] using hall⟩

/-! Identifier characters are distinct from every delimiter. -/

theorem idChar_not_ws {c : Char} (h : isIdChar c = true) : isWsChar c = false := by
  cases hc : isWsChar c with
  | false => rfl
  | true =>
    exfalso
    have : ((c = ' ' ∨ c = '\n') ∨ c = '\t') ∨ c = '\r' := by
      simpa [isWsChar] using hc
    rcases this with ((rfl | rfl) | rfl) | rfl <;> simp [isIdChar] at h

theorem idChar_ne {c d : Char} (h : isIdChar c = true) (hd : isIdChar d = false) : c ≠ d := by
  rintro rfl
  rw [h] at hd
  simp at hd

theorem wfId_head {s : String} (hs : wfId s = true) :
    ∃ c l, s.data = c :: l ∧ isIdChar c = true := by
  obtain ⟨hne, hall⟩ := by simpa [wfId] using hs
  cases hd : s.data with
  | nil => simp [hd] at hne
  | cons c l => exact ⟨c, l, rfl, by simpa using hall c (by simp [hd])⟩

/-! ## Primary expressions: print-then-parse and soundness -/

theorem parsePrim_print {p : Prim} {r : List Char}
    (hp : wfPrim p = true) (hr : headFails isIdChar r = true) :
    parsePrim (printPrimChars p ++ r) = some (p, r) := by
  cases p with
  | str s =>
    have hne : ∀ x ∈ s.data, ¬x = '\'' := by simpa [wfPrim] using hp
    have hall : ∀ c ∈ s.data, (fun d => d != '\'') c = true := by
      intro c hc
      simpa using hne c hc
    have h := takeWhile_append_all (p := fun d => d != '\'') (l := s.data)
      (r := '\'' :: r) hall (by simp [headFails])
    have hshape : printPrimChars (Prim.str s) ++ r = '\'' :: (s.data ++ '\'' :: r) := by
      simp [printPrimChars]
    rw [hshape]
    simp [parsePrim, h.1, h.2]
  | id s =>
    have hwf : wfId s = true := by simpa [wfPrim] using hp
    obtain ⟨c, l, hd, hc⟩ := wfId_head hwf
    have hne : c ≠ '\'' := idChar_ne hc (by decide)
    have hti := takeIdent_print (s := s) (r := r) hwf hr
    show parsePrim (s.data ++ r) = some (.id s, r)
    rw [hd, List.cons_append]
    simp only [parsePrim, if_neg hne]
    rw [← List.cons_append, ← hd, hti]

theorem parsePrim_sound {cs : List Char} {p : Prim} {r : List Char}
    (h : parsePrim cs = some (p, r)) : wfPrim p = true := by
  cases cs with
  | nil => exact absurd h (by simp [parsePrim])
  | cons c rest =>
    by_cases hc : c = '\''
    · simp only [parsePrim, if_pos hc] at h
      cases hdw : rest.dropWhile (fun d => d != '\'') with
      | nil => simp only [hdw] at h; exact Option.noConfusion h
      | cons d r2 =>
        simp only [hdw] at h
        by_cases hd : d = '\''
        · rw [if_pos hd] at h
          have hp : p = .str ⟨rest.takeWhile (fun d => d != '\'')⟩ := by
            have := congrArg (Option.map Prod.fst) h
            simpa using this.symm
          subst hp
          simp only [wfPrim, List.all_eq_true]
          intro x hx
          simpa using mem_takeWhile x hx
        · rw [if_neg hd] at h; exact absurd h (by simp)
    · simp only [parsePrim, if_neg hc] at h
      cases hti : takeIdent (c :: rest) with
      | none => simp only [hti] at h; exact Option.noConfusion h
      | some v =>
        obtain ⟨s, r'⟩ := v
        simp only [hti] at h
        have hp : p = .id s := by
          have := congrArg (Option.map Prod.fst) h
          simpa using this.symm
        subst hp
        simpa [wfPrim] using takeIdent_sound hti

/-- After a printed primary, parsing may continue: its first character is
never whitespace. -/
theorem skipWs_printPrim {p : Prim} (hp : wfPrim p = true) (X : List Char) :
    skipWs (printPrimChars p ++ X) = printPrimChars p ++ X := by
  cases p with
  | str s => simp only [printPrimChars, List.cons_append]; exact skipWs_not_ws (by decide)
  | id s =>
    obtain ⟨c, l, hd, hc⟩ := wfId_head (by simpa [wfPrim] using hp)
    simp only [printPrimChars, hd, List.cons_append]
    exact skipWs_not_ws (idChar_not_ws hc)

theorem exprStop_headFails {r : List Char} (h : exprStop r = true) :
    headFails isIdChar r = true := by
  cases r with
  | nil => rfl
  | cons c r' =>
    have : c = '\x7d' := by simpa [exprStop] using h
    subst this
    rfl

theorem expectChar_pos {c : Char} {r : List Char} : expectChar c (c :: r) = some r := by
  simp [expectChar]

theorem expectChar_neg {c d : Char} {r : List Char} (h : d ≠ c) :
    expectChar c (d :: r) = none := by
  simp [expectChar, h]

/-- A printed expression followed by a stop character is never a prefix of a
longer conditional: the stop is not `?`. -/
theorem expectChar_stop {c : Char} {r : List Char} (hr : exprStop r = true)
    (hc : c ≠ '\x7d') : expectChar c r = none := by
  cases r with
  | nil => rfl
  | cons d r' =>
    have : d = '\x7d' := by simpa [exprStop] using hr
    subst this
    exact expectChar_neg (by simpa using hc.symm)

theorem skipWs_exprStop {r : List Char} (hr : exprStop r = true) : skipWs r = r := by
  cases r with
  | nil => rfl
  | cons d r' =>
    have : d = '\x7d' := by simpa [exprStop] using hr
    subst this
    exact skipWs_not_ws (by decide)

theorem parseExprCore_print {e : Expr} {r : List Char}
    (he : wfExpr e = true) (hr : exprStop r = true) :
    parseExprCore (printExprChars e ++ r) = some (e, r) := by
  cases e with
  | prim p =>
    have h1 := parsePrim_print (p := p) (r := r) (by simpa [wfExpr] using he)
      (exprStop_headFails hr)
    simp only [printExprChars, parseExprCore, h1, skipWs_exprStop hr,
      expectChar_stop (c := '?') hr (by decide)]
  | cond c t e =>
    obtain ⟨hc, ht, he'⟩ : wfPrim c = true ∧ wfPrim t = true ∧ wfPrim e = true := by
      simpa [wfExpr, Bool.and_eq_true, and_assoc] using he
    have h1 := parsePrim_print (p := c)
      (r := ' ' :: '?' :: ' ' :: (printPrimChars t ++ ' ' :: ':' :: ' ' :: (printPrimChars e ++ r)))
      hc (by rfl)
    have h2 := parsePrim_print (p := t)
      (r := ' ' :: ':' :: ' ' :: (printPrimChars e ++ r)) ht (by rfl)
    have h3 := parsePrim_print (p := e) (r := r) he' (exprStop_headFails hr)
    have hshape : printExprChars (.cond c t e) ++ r =
        printPrimChars c ++ ' ' :: '?' :: ' ' :: (printPrimChars t
          ++ ' ' :: ':' :: ' ' :: (printPrimChars e ++ r)) := by
      simp [printExprChars]
    have s1 : skipWs (' ' :: '?' :: ' ' :: (printPrimChars t
        ++ ' ' :: ':' :: ' ' :: (printPrimChars e ++ r))) =
        '?' :: ' ' :: (printPrimChars t ++ ' ' :: ':' :: ' ' :: (printPrimChars e ++ r)) := by
      rw [skipWs_ws (by decide), skipWs_not_ws (by decide)]
    have s2 : skipWs (' ' :: (printPrimChars t ++ ' ' :: ':' :: ' ' :: (printPrimChars e ++ r))) =
        printPrimChars t ++ ' ' :: ':' :: ' ' :: (printPrimChars e ++ r) := by
      rw [skipWs_ws (by decide)]
      exact skipWs_printPrim ht _
    have s3 : skipWs (' ' :: ':' :: ' ' :: (printPrimChars e ++ r)) =
        ':' :: ' ' :: (printPrimChars e ++ r) := by
      rw [skipWs_ws (by decide), skipWs_not_ws (by decide)]
    have s4 : skipWs (' ' :: (printPrimChars e ++ r)) = printPrimChars e ++ r := by
      rw [skipWs_ws (by decide)]
      exact skipWs_printPrim he' _
    rw [hshape]
    simp only [parseExprCore, h1, s1, expectChar_pos, s2, h2, s3, s4, h3]

theorem parseExprCore_sound {cs : List Char} {e : Expr} {r : List Char}
    (h : parseExprCore cs = some (e, r)) : wfExpr e = true := by
  unfold parseExprCore at h
  cases h1 : parsePrim cs with
  | none => simp only [h1] at h; exact Option.noConfusion h
  | some v =>
    obtain ⟨p, rest⟩ := v
    simp only [h1] at h
    cases h2 : expectChar '?' (skipWs rest) with
    | none =>
      simp only [h2] at h
      obtain ⟨rfl, rfl⟩ : Expr.prim p = e ∧ rest = r := by simpa using h
      simpa [wfExpr] using parsePrim_sound h1
    | some r2 =>
      simp only [h2] at h
      cases h3 : parsePrim (skipWs r2) with
      | none => simp only [h3] at h; exact Option.noConfusion h
      | some w =>
        obtain ⟨t, r3⟩ := w
        simp only [h3] at h
        cases h4 : expectChar ':' (skipWs r3) with
        | none => simp only [h4] at h; exact Option.noConfusion h
        | some r4 =>
          simp only [h4] at h
          cases h5 : parsePrim (skipWs r4) with
          | none => simp only [h5] at h; exact Option.noConfusion h
          | some u =>
            obtain ⟨q, r5⟩ := u
            simp only [h5] at h
            obtain ⟨rfl, rfl⟩ : Expr.cond p t q = e ∧ r5 = r := by simpa using h
            simp [wfExpr, parsePrim_sound h1, parsePrim_sound h3, parsePrim_sound h5]

/-- A printed expression starts with a non-whitespace character. -/
theorem skipWs_printExpr {e : Expr} (he : wfExpr e = true) (X : List Char) :
    skipWs (printExprChars e ++ X) = printExprChars e ++ X := by
  cases e with
  | prim p => exact skipWs_printPrim (by simpa [wfExpr] using he) X
  | cond c t e =>
    have hc : wfPrim c = true := by
      have := by simpa [wfExpr, Bool.and_eq_true, and_assoc] using he
      exact this.1
    have : printExprChars (.cond c t e) ++ X =
        printPrimChars c ++ (' ' :: '?' :: ' ' :: printPrimChars t
          ++ ' ' :: ':' :: ' ' :: printPrimChars e ++ X) := by
      simp [printExprChars]
    rw [this, skipWs_printPrim hc]

/-! ## Attribute values and attributes -/

theorem parseValue_print {v : AttrValue} {r : List Char}
    (hv : wfValue v = true) : parseValue (printValueChars v ++ r) = some (v, r) := by
  cases v with
  | lit s =>
    have hne : ∀ x ∈ s.data, ¬x = '"' := by simpa [wfValue] using hv
    have hall : ∀ c ∈ s.data, (fun d => d != '"') c = true := by
      intro c hc
      simpa using hne c hc
    have h := takeWhile_append_all (p := fun d => d != '"') (l := s.data)
      (r := '"' :: r) hall (by simp [headFails])
    have hshape : printValueChars (AttrValue.lit s) ++ r = '"' :: (s.data ++ '"' :: r) := by
      simp [printValueChars]
    rw [hshape]
    simp [parseValue, h.1, h.2]
  | container e =>
    have he : wfExpr e = true := by simpa [wfValue] using hv
    have hshape : printValueChars (AttrValue.container e) ++ r =
        '\x7b' :: (printExprChars e ++ '\x7d' :: r) := by
      simp [printValueChars]
    have hpe := parseExprCore_print (e := e) (r := '\x7d' :: r) he (by rfl)
    rw [hshape]
    simp [parseValue, if_neg (by decide : ¬ ('\x7b' : Char) = '"'),
      skipWs_printExpr he, hpe, skipWs_not_ws (by decide : isWsChar '\x7d' = false),
      expectChar_pos]

theorem parseValue_sound {cs : List Char} {v : AttrValue} {r : List Char}
    (h : parseValue cs = some (v, r)) : wfValue v = true := by
  cases cs with
  | nil => exact Option.noConfusion h
  | cons c rest =>
    by_cases hc : c = '"'
    · simp only [parseValue, if_pos hc] at h
      cases hdw : rest.dropWhile (fun d => d != '"') with
      | nil => simp only [hdw] at h; exact Option.noConfusion h
      | cons d r2 =>
        simp only [hdw] at h
        by_cases hd : d = '"'
        · rw [if_pos hd] at h
          obtain ⟨rfl, rfl⟩ : AttrValue.lit ⟨rest.takeWhile (fun d => d != '"')⟩ = v ∧ r2 = r := by
            simpa using h
          simp only [wfValue, List.all_eq_true]
          intro x hx
          simpa using mem_takeWhile x hx
        · rw [if_neg hd] at h; exact Option.noConfusion h
    · by_cases hb : c = '\x7b'
      · simp only [parseValue, if_neg hc, if_pos hb] at h
        cases h1 : parseExprCore (skipWs rest) with
        | none => simp only [h1] at h; exact Option.noConfusion h
        | some w =>
          obtain ⟨e, r2⟩ := w
          simp only [h1] at h
          cases h2 : expectChar '\x7d' (skipWs r2) with
          | none => simp only [h2] at h; exact Option.noConfusion h
          | some r3 =>
            simp only [h2] at h
            obtain ⟨rfl, rfl⟩ : AttrValue.container e = v ∧ r3 = r := by simpa using h
            simpa [wfValue] using parseExprCore_sound h1
      · simp only [parseValue, if_neg hc, if_neg hb] at h
        exact Option.noConfusion h

theorem parseAttr_print {a : Attr} {r : List Char}
    (ha : wfAttr a = true) : parseAttr (printAttrChars a ++ r) = some (a, r) := by
  obtain ⟨hn, hv⟩ : wfId a.name = true ∧ wfValue a.value = true := by
    simpa [wfAttr, Bool.and_eq_true] using ha
  have hti := takeIdent_print (s := a.name) (r := '=' :: (printValueChars a.value ++ r)) hn
    (by rfl)
  have hpv := parseValue_print (v := a.value) (r := r) hv
  have hshape : printAttrChars a ++ r =
      a.name.data ++ '=' :: (printValueChars a.value ++ r) := by
    simp [printAttrChars]
  rw [hshape]
  simp only [parseAttr, hti, expectChar_pos, hpv]

theorem parseAttr_sound {cs : List Char} {a : Attr} {r : List Char}
    (h : parseAttr cs = some (a, r)) : wfAttr a = true := by
  unfold parseAttr at h
  cases h1 : takeIdent cs with
  | none => simp only [h1] at h; exact Option.noConfusion h
  | some v =>
    obtain ⟨n, r1⟩ := v
    simp only [h1] at h
    cases h15 : expectChar '=' r1 with
    | none => simp only [h15] at h; exact Option.noConfusion h
    | some r2 =>
      simp only [h15] at h
      cases h2 : parseValue r2 with
      | none => simp only [h2] at h; exact Option.noConfusion h
      | some w =>
        obtain ⟨v, r3⟩ := w
        simp only [h2] at h
        obtain ⟨rfl, rfl⟩ : Attr.mk n v = a ∧ r3 = r := by simpa using h
        simp [wfAttr, takeIdent_sound h1, parseValue_sound h2]

/-! ## Attribute lists -/

theorem skipWs_printAttr {a : Attr} (ha : wfAttr a = true) (X : List Char) :
    skipWs (printAttrChars a ++ X) = printAttrChars a ++ X := by
  obtain ⟨hn, _⟩ : wfId a.name = true ∧ wfValue a.value = true := by
    simpa [wfAttr, Bool.and_eq_true] using ha
  obtain ⟨c, l, hd, hc⟩ := wfId_head hn
  have hshape : printAttrChars a ++ X = c :: (l ++ '=' :: (printValueChars a.value ++ X)) := by
    simp [printAttrChars, hd]
  rw [hshape]
  exact skipWs_not_ws (idChar_not_ws hc)

theorem printAttrsChars_length_ge (attrs : List Attr) :
    attrs.length ≤ (printAttrsChars attrs).length := by
  induction attrs with
  | nil => simp [printAttrsChars]
  | cons a as ih =>
    simp only [printAttrsChars, List.length_cons, List.cons_append, List.length_append]
    omega

theorem parseAttrs_print : ∀ {attrs : List Attr} {fuel : Nat} {r : List Char},
    attrs.all wfAttr = true → attrs.length + 1 ≤ fuel →
    parseAttrs fuel (printAttrsChars attrs ++ ' ' :: '/' :: '>' :: r) = some (attrs, r) := by
  intro attrs
  induction attrs with
  | nil =>
    intro fuel r _ hfuel
    cases fuel with
    | zero => omega
    | succ f =>
      have hskip : skipWs (printAttrsChars [] ++ ' ' :: '/' :: '>' :: r) = '/' :: '>' :: r := by
        simp only [printAttrsChars, List.nil_append]
        rw [skipWs_ws (by decide), skipWs_not_ws (by decide)]
      simp [parseAttrs, hskip]
  | cons a as ih =>
    intro fuel r hwf hfuel
    obtain ⟨ha, has⟩ : wfAttr a = true ∧ as.all wfAttr = true := by
      simpa [List.all_cons, Bool.and_eq_true] using hwf
    cases fuel with
    | zero => omega
    | succ f =>
      have hshape : printAttrsChars (a :: as) ++ ' ' :: '/' :: '>' :: r =
          ' ' :: (printAttrChars a ++ (printAttrsChars as ++ ' ' :: '/' :: '>' :: r)) := by
        simp [printAttrsChars]
      have hskip : skipWs (printAttrsChars (a :: as) ++ ' ' :: '/' :: '>' :: r) =
          printAttrChars a ++ (printAttrsChars as ++ ' ' :: '/' :: '>' :: r) := by
        rw [hshape, skipWs_ws (by decide), skipWs_printAttr ha]
      obtain ⟨hn, _⟩ : wfId a.name = true ∧ wfValue a.value = true := by
        simpa [wfAttr, Bool.and_eq_true] using ha
      obtain ⟨c, l, hd, hc⟩ := wfId_head hn
      have hcshape : printAttrChars a ++ (printAttrsChars as ++ ' ' :: '/' :: '>' :: r) =
          c :: (l ++ '=' :: (printValueChars a.value ++ (printAttrsChars as ++ ' ' :: '/' :: '>' :: r))) := by
        simp [printAttrChars, hd]
      have hnotclose :
          ¬ (printAttrChars a ++ (printAttrsChars as ++ ' ' :: '/' :: '>' :: r)).take 2 = ['/', '>'] := by
        rw [hcshape]
        intro heq
        have : c = '/' := by simpa using congrArg List.head? heq
        exact idChar_ne hc (by decide) this
      have hattr := parseAttr_print (a := a)
        (r := printAttrsChars as ++ ' ' :: '/' :: '>' :: r) ha
      have hf2 : as.length + 1 ≤ f := by
        simp only [List.length_cons] at hfuel
        omega
      simp only [parseAttrs, hskip, if_neg hnotclose, hattr, ih has hf2]

theorem parseAttrs_sound : ∀ {fuel : Nat} {cs : List Char} {attrs : List Attr} {r : List Char},
    parseAttrs fuel cs = some (attrs, r) → attrs.all wfAttr = true := by
  intro fuel
  induction fuel with
  | zero => intro cs attrs r h; exact Option.noConfusion h
  | succ f ih =>
    intro cs attrs r h
    by_cases hclose : (skipWs cs).take 2 = ['/', '>']
    · simp only [parseAttrs, if_pos hclose] at h
      obtain ⟨rfl, rfl⟩ : ([] : List Attr) = attrs ∧ (skipWs cs).drop 2 = r := by simpa using h
      rfl
    · simp only [parseAttrs, if_neg hclose] at h
      cases h1 : parseAttr (skipWs cs) with
      | none => simp only [h1] at h; exact Option.noConfusion h
      | some v =>
        obtain ⟨a, r2⟩ := v
        simp only [h1] at h
        cases h2 : parseAttrs f r2 with
        | none => simp only [h2] at h; exact Option.noConfusion h
        | some w =>
          obtain ⟨rest, r3⟩ := w
          simp only [h2] at h
          obtain ⟨rfl, rfl⟩ : a :: rest = attrs ∧ r3 = r := by simpa using h
          simp [List.all_cons, parseAttr_sound h1, ih h2]

/-! ## Element names -/

theorem parseElemName_print {n : ElemName} {r : List Char} (hn : wfName n = true) :
    parseElemName (printNameChars n ++ ' ' :: r) = some (n, ' ' :: r) := by
  cases n with
  | ident s =>
    have hti := takeIdent_print (s := s) (r := ' ' :: r) (by simpa [wfName] using hn) (by rfl)
    simp only [printNameChars, parseElemName, hti, expectChar_neg (by decide : (' ' : Char) ≠ '.')]
  | member o p =>
    obtain ⟨ho, hp⟩ : wfId o = true ∧ wfId p = true := by
      simpa [wfName, Bool.and_eq_true] using hn
    have hti1 := takeIdent_print (s := o) (r := '.' :: (p.data ++ ' ' :: r)) ho (by rfl)
    have hti2 := takeIdent_print (s := p) (r := ' ' :: r) hp (by rfl)
    have hshape : printNameChars (.member o p) ++ ' ' :: r =
        o.data ++ '.' :: (p.data ++ ' ' :: r) := by
      simp [printNameChars]
    rw [hshape]
    simp only [parseElemName, hti1, expectChar_pos, hti2]

theorem parseElemName_sound {cs : List Char} {n : ElemName} {r : List Char}
    (h : parseElemName cs = some (n, r)) : wfName n = true := by
  unfold parseElemName at h
  cases h1 : takeIdent cs with
  | none => simp only [h1] at h; exact Option.noConfusion h
  | some v =>
    obtain ⟨s, r1⟩ := v
    simp only [h1] at h
    cases h2 : expectChar '.' r1 with
    | none =>
      simp only [h2] at h
      obtain ⟨rfl, rfl⟩ : ElemName.ident s = n ∧ r1 = r := by simpa using h
      simpa [wfName] using takeIdent_sound h1
    | some r2 =>
      simp only [h2] at h
      cases h3 : takeIdent r2 with
      | none => simp only [h3] at h; exact Option.noConfusion h
      | some w =>
        obtain ⟨p, r3⟩ := w
        simp only [h3] at h
        obtain ⟨rfl, rfl⟩ : ElemName.member s p = n ∧ r3 = r := by simpa using h
        simp [wfName, takeIdent_sound h1, takeIdent_sound h3]

/-! ## Whole files: the parse–print round trip -/

theorem dropWhile_all {p : Char → Bool} {l : List Char}
    (hl : ∀ c ∈ l, p c = true) : l.dropWhile p = [] := by
  have h := takeWhile_append_all (p := p) (l := l) (r := []) hl rfl
  simpa using h.2

theorem printFileChars_length_ge (els : List Element) :
    els.length ≤ (printFileChars els).length := by
  induction els with
  | nil => simp [printFileChars]
  | cons el rest ih =>
    simp only [printFileChars, List.length_cons, List.length_append, List.length_cons]
    omega

/-- Shape fact: after an element name, the printed text always continues with
a space (either before the first attribute or before `/>`). -/
theorem printAttrsChars_shape (attrs : List Attr) (Y : List Char) :
    ∃ Q, printAttrsChars attrs ++ ' ' :: Y = ' ' :: Q ∧
      Q.length + 1 = (printAttrsChars attrs).length + Y.length + 1 := by
  cases attrs with
  | nil => exact ⟨Y, by simp [printAttrsChars], by simp [printAttrsChars]⟩
  | cons a as =>
    refine ⟨printAttrChars a ++ (printAttrsChars as ++ ' ' :: Y), by simp [printAttrsChars], ?_⟩
    simp [printAttrsChars]
    omega

theorem parseElems_print : ∀ {els : List Element} {fuel : Nat} {pre : List Char},
    wfFile els = true → els.length + 1 ≤ fuel → (∀ c ∈ pre, isWsChar c = true) →
    parseElems fuel (pre ++ printFileChars els) = some els := by
  intro els
  induction els with
  | nil =>
    intro fuel pre _ hfuel hpre
    cases fuel with
    | zero => omega
    | succ f =>
      have hskip : skipWs (pre ++ printFileChars []) = [] := by
        simp only [printFileChars, List.append_nil]
        exact dropWhile_all hpre
      simp [parseElems, hskip]
  | cons el rest ih =>
    intro fuel pre hwf hfuel hpre
    obtain ⟨hel, hrest⟩ : wfElem el = true ∧ wfFile rest = true := by
      simpa [wfFile, List.all_cons, Bool.and_eq_true] using hwf
    obtain ⟨hname, hattrs⟩ : wfName el.name = true ∧ el.attrs.all wfAttr = true := by
      simpa [wfElem, Bool.and_eq_true] using hel
    cases fuel with
    | zero => omega
    | succ f =>
      obtain ⟨Q, hQ, hQlen⟩ := printAttrsChars_shape el.attrs ('/' :: '>' :: '\n' :: printFileChars rest)
      have hshape : pre ++ printFileChars (el :: rest) =
          pre ++ '<' :: (printNameChars el.name ++ (' ' :: Q)) := by
        simp only [printFileChars, printElemChars]
        rw [← hQ]
        simp
      have hskip : skipWs (pre ++ '<' :: (printNameChars el.name ++ (' ' :: Q))) =
          '<' :: (printNameChars el.name ++ (' ' :: Q)) :=
        skipWs_append_all hpre (by rfl)
      have hen := parseElemName_print (n := el.name) (r := Q) hname
      have hattrs2 : parseAttrs ((' ' :: Q).length + 1) (' ' :: Q) =
          some (el.attrs, '\n' :: printFileChars rest) := by
        rw [← hQ]
        apply parseAttrs_print hattrs
        have := printAttrsChars_length_ge el.attrs
        simp only [List.length_cons, List.length_append] at hQlen ⊢
        omega
      have hrec : parseElems f ('\n' :: printFileChars rest) = some rest := by
        have := @ih f ['\n'] hrest (by
          simp only [List.length_cons] at hfuel
          omega) (by decide)
        simpa using this
      rw [hshape]
      simp only [parseElems, hskip, if_pos rfl, hen, hattrs2, hrec]
      simp

theorem parseElems_sound : ∀ {fuel : Nat} {cs : List Char} {els : List Element},
    parseElems fuel cs = some els → wfFile els = true := by
  intro fuel
  induction fuel with
  | zero => intro cs els h; exact Option.noConfusion h
  | succ f ih =>
    intro cs els h
    cases hskip : skipWs cs with
    | nil =>
      simp only [parseElems, hskip] at h
      obtain rfl : ([] : List Element) = els := by simpa using h
      rfl
    | cons c rest =>
      simp only [parseElems, hskip] at h
      by_cases hc : c = '<'
      · rw [if_pos hc] at h
        cases h1 : parseElemName rest with
        | none => simp only [h1] at h; exact Option.noConfusion h
        | some v =>
          obtain ⟨n, r2⟩ := v
          simp only [h1] at h
          cases h2 : parseAttrs (r2.length + 1) r2 with
          | none => simp only [h2] at h; exact Option.noConfusion h
          | some w =>
            obtain ⟨attrs, r3⟩ := w
            simp only [h2] at h
            cases h3 : parseElems f r3 with
            | none => simp only [h3] at h; exact Option.noConfusion h
            | some els' =>
              simp only [h3] at h
              obtain rfl : Element.mk n attrs :: els' = els := by simpa using h
              simp only [wfFile, List.all_cons, Bool.and_eq_true]
              refine ⟨by simp [wfElem, parseElemName_sound h1, parseAttrs_sound h2], ?_⟩
              exact ih h3
      · rw [if_neg hc] at h; exact Option.noConfusion h

/-- Round trip: printing a well-formed tree and reparsing recovers the tree
exactly (the printer and parser agree on canonical output). -/
theorem parseFile_printFile {els : List Element} (h : wfFile els = true) :
    parseFile (printFile els) = some els := by
  have hlen := printFileChars_length_ge els
  have := @parseElems_print els ((printFileChars els).length + 1) [] h (by omega) (by simp)
  simpa [parseFile, printFile] using this

/-- Everything the file parser produces is well formed. -/
theorem parseFile_wf {s : String} {els : List Element} (h : parseFile s = some els) :
    wfFile els = true :=
  parseElems_sound h

/-! ## Characterising the reader traversal -/

/-- Once the running count has passed the requested ordinal, the reader
skips every remaining match and reports the accumulator unchanged. -/
theorem getLoop_past {tag : String} {i : Nat} :
    ∀ (els : List Element) (c : Nat) (acc : Option String), i < c →
      getLoop tag (some i) els c acc = acc := by
  intro els
  induction els with
  | nil => intro c acc _; rfl
  | cons el rest ih =>
    intro c acc h
    obtain ⟨name, attrs⟩ := el
    cases name with
    | member o p => simpa [getLoop] using ih c acc h
    | ident n =>
      by_cases hn : n = tag
      · simp only [getLoop, if_pos hn]
        rw [if_neg (by omega : ¬ c = i)]
        exact ih (c + 1) acc (by omega)
      · simp only [getLoop, if_neg hn]
        exact ih c acc h

/-- If the match at the requested ordinal has a `className` attribute, the
reader reports exactly that attribute's rendering. -/
theorem getLoop_found {tag : String} {i : Nat} :
    ∀ (els : List Element) (c : Nat) (acc : Option String) (el : Element) (a : Attr),
      c ≤ i → nthMatch els tag (i - c) = some el → findCN el.attrs = some a →
      getLoop tag (some i) els c acc = some (renderAttr a) := by
  intro els
  induction els with
  | nil => intro c acc el a _ hnth _; simp [nthMatch] at hnth
  | cons e rest ih =>
    intro c acc el a hc hnth hcn
    obtain ⟨name, attrs⟩ := e
    cases name with
    | member o p =>
      have hfil : List.filter (isMatch tag) (⟨.member o p, attrs⟩ :: rest) =
          List.filter (isMatch tag) rest := by
        simp [List.filter_cons, isMatch]
      simp only [nthMatch, hfil] at hnth
      simpa [getLoop] using ih c acc el a hc (by simpa [nthMatch] using hnth) hcn
    | ident n =>
      by_cases hn : n = tag
      · have hm : isMatch tag ⟨.ident n, attrs⟩ = true := by simp [isMatch, hn]
        have hfil : List.filter (isMatch tag) (⟨.ident n, attrs⟩ :: rest) =
            ⟨.ident n, attrs⟩ :: List.filter (isMatch tag) rest := by
          simp [List.filter_cons, hm]
        by_cases hci : c = i
        · subst hci
          rw [Nat.sub_self] at hnth
          simp only [nthMatch, hfil, List.getElem?_cons_zero] at hnth
          have hel : el = ⟨.ident n, attrs⟩ := by
            exact (Option.some.injEq _ _ ▸ hnth).symm
          subst hel
          simp only [getLoop, if_pos hn, if_pos rfl, hcn]
          exact getLoop_past rest (c + 1) _ (by omega)
        · have hsub : i - c = (i - (c + 1)) + 1 := by omega
          rw [hsub] at hnth
          simp only [nthMatch, hfil, List.getElem?_cons_succ] at hnth
          simp only [getLoop, if_pos hn, if_neg hci]
          exact ih (c + 1) acc el a (by omega) (by simpa [nthMatch] using hnth) hcn
      · have hfil : List.filter (isMatch tag) (⟨.ident n, attrs⟩ :: rest) =
            List.filter (isMatch tag) rest := by
          simp [List.filter_cons, isMatch, hn]
        simp only [nthMatch, hfil] at hnth
        simp only [getLoop, if_neg hn]
        exact ih c acc el a hc (by simpa [nthMatch] using hnth) hcn

theorem getLast?_cons_my {α : Type} : ∀ (l : List α) (a : α),
    (a :: l).getLast? = match l.getLast? with
      | some b => some b
      | none => some a := by
  intro l
  induction l with
  | nil => intro a; rfl
  | cons b l ih =>
    intro a
    rw [List.getLast?_cons_cons, ih b]
    cases hl : l.getLast? <;> rfl

/-- With no ordinal, the reader's accumulator is overwritten by every match
that has a `className` attribute: the answer is the last such match. -/
theorem getLoop_none {tag : String} :
    ∀ (els : List Element) (c : Nat) (acc : Option String),
      getLoop tag none els c acc =
        match (matchedCNs els tag).getLast? with
        | some a => some (renderAttr a)
        | none => acc := by
  intro els
  induction els with
  | nil => intro c acc; rfl
  | cons e rest ih =>
    intro c acc
    obtain ⟨name, attrs⟩ := e
    cases name with
    | member o p =>
      have hfil : List.filter (isMatch tag) (⟨.member o p, attrs⟩ :: rest) =
          List.filter (isMatch tag) rest := by
        simp [List.filter_cons, isMatch]
      simp only [getLoop, matchedCNs, hfil]
      exact ih c acc
    | ident n =>
      by_cases hn : n = tag
      · have hm : isMatch tag ⟨.ident n, attrs⟩ = true := by simp [isMatch, hn]
        have hfil : List.filter (isMatch tag) (⟨.ident n, attrs⟩ :: rest) =
            ⟨.ident n, attrs⟩ :: List.filter (isMatch tag) rest := by
          simp [List.filter_cons, hm]
        cases hcn : findCN attrs with
        | some a =>
          have hM : matchedCNs (⟨.ident n, attrs⟩ :: rest) tag = a :: matchedCNs rest tag := by
            simp [matchedCNs, hfil, List.filterMap_cons, hcn]
          simp only [getLoop, if_pos hn, hcn]
          rw [ih (c + 1) (some (renderAttr a)), hM, getLast?_cons_my]
          cases (matchedCNs rest tag).getLast? <;> rfl
        | none =>
          have hM : matchedCNs (⟨.ident n, attrs⟩ :: rest) tag = matchedCNs rest tag := by
            simp [matchedCNs, hfil, List.filterMap_cons, hcn]
          simp only [getLoop, if_pos hn, hcn, hM]
          exact ih c acc
      · have hfil : List.filter (isMatch tag) (⟨.ident n, attrs⟩ :: rest) =
            List.filter (isMatch tag) rest := by
          simp [List.filter_cons, isMatch, hn]
        simp only [getLoop, if_neg hn, matchedCNs, hfil]
        exact ih c acc

/-- A traversal that never matches reports the accumulator unchanged. -/
theorem getLoop_noMatch {tag : String} {idx : Option Nat} :
    ∀ (els : List Element) (c : Nat) (acc : Option String),
      (∀ el ∈ els, isMatch tag el = false) →
      getLoop tag idx els c acc = acc := by
  intro els
  induction els with
  | nil => intro c acc _; rfl
  | cons e rest ih =>
    intro c acc hall
    have he := hall e (by simp)
    obtain ⟨name, attrs⟩ := e
    cases name with
    | member o p => simpa [getLoop] using ih c acc (fun x hx => hall x (by simp [hx]))
    | ident n =>
      have hn : ¬ n = tag := by simpa [isMatch] using he
      simp only [getLoop, if_neg hn]
      exact ih c acc (fun x hx => hall x (by simp [hx]))

/-! ## Characterising the writer traversal -/

/-- Once the running count has passed the requested ordinal, the writer
touches nothing. -/
theorem updLoop_past {tag v : String} {i : Nat} :
    ∀ (els : List Element) (c : Nat), i < c →
      updLoop tag v (some i) els c = (els, false) := by
  intro els
  induction els with
  | nil => intro c _; rfl
  | cons el rest ih =>
    intro c h
    obtain ⟨name, attrs⟩ := el
    cases name with
    | member o p => simp [updLoop, ih c h]
    | ident n =>
      by_cases hn : n = tag
      · simp only [updLoop, if_pos hn]
        rw [if_neg (by omega : ¬ c = i)]
        simp [ih (c + 1) (by omega)]
      · simp only [updLoop, if_neg hn]
        simp [ih c h]

/-- When the requested ordinal is within range, the writer mutates exactly the
match at that ordinal and reports an update. -/
theorem updLoop_hit {tag v : String} {i : Nat} :
    ∀ (els : List Element) (c : Nat), c ≤ i → i - c < countMatches els tag →
      updLoop tag v (some i) els c = (updateNthMatch tag v els (i - c), true) := by
  intro els
  induction els with
  | nil => intro c _ h; simp [countMatches] at h
  | cons el rest ih =>
    intro c hc hlt
    obtain ⟨name, attrs⟩ := el
    cases name with
    | member o p =>
      have hm : isMatch tag ⟨.member o p, attrs⟩ = false := rfl
      have hcnt : countMatches (⟨.member o p, attrs⟩ :: rest) tag = countMatches rest tag := by
        simp [countMatches, List.filter_cons, hm]
      rw [hcnt] at hlt
      simp [updLoop, updateNthMatch, hm, ih c hc hlt]
    | ident n =>
      by_cases hn : n = tag
      · have hm : isMatch tag ⟨.ident n, attrs⟩ = true := by simp [isMatch, hn]
        by_cases hci : c = i
        · subst hci
          simp only [updLoop, if_pos hn, if_pos rfl]
          rw [updLoop_past rest (c + 1) (by omega)]
          simp [updateNthMatch, hm, Nat.sub_self]
        · have hcnt : countMatches (⟨.ident n, attrs⟩ :: rest) tag =
              countMatches rest tag + 1 := by
            simp [countMatches, List.filter_cons, hm]
          have hsub : i - c = (i - (c + 1)) + 1 := by omega
          have hlt2 : i - (c + 1) < countMatches rest tag := by omega
          simp only [updLoop, if_pos hn, if_neg hci]
          rw [ih (c + 1) (by omega) hlt2]
          simp [updateNthMatch, hm, hsub]
      · have hm : isMatch tag ⟨.ident n, attrs⟩ = false := by simp [isMatch, hn]
        have hcnt : countMatches (⟨.ident n, attrs⟩ :: rest) tag = countMatches rest tag := by
          simp [countMatches, List.filter_cons, hm]
        rw [hcnt] at hlt
        simp only [updLoop, if_neg hn]
        rw [ih c hc hlt]
        simp [updateNthMatch, hm]

/-- When the requested ordinal is beyond the number of matches, the writer is
a no-op and reports no update. -/
theorem updLoop_miss {tag v : String} {i : Nat} :
    ∀ (els : List Element) (c : Nat), c ≤ i → countMatches els tag ≤ i - c →
      updLoop tag v (some i) els c = (els, false) := by
  intro els
  induction els with
  | nil => intro c _ _; rfl
  | cons el rest ih =>
    intro c hc hge
    obtain ⟨name, attrs⟩ := el
    cases name with
    | member o p =>
      have hm : isMatch tag ⟨.member o p, attrs⟩ = false := rfl
      have hcnt : countMatches (⟨.member o p, attrs⟩ :: rest) tag = countMatches rest tag := by
        simp [countMatches, List.filter_cons, hm]
      rw [hcnt] at hge
      simp [updLoop, ih c hc hge]
    | ident n =>
      by_cases hn : n = tag
      · have hm : isMatch tag ⟨.ident n, attrs⟩ = true := by simp [isMatch, hn]
        have hcnt : countMatches (⟨.ident n, attrs⟩ :: rest) tag =
            countMatches rest tag + 1 := by
          simp [countMatches, List.filter_cons, hm]
        rw [hcnt] at hge
        have hci : ¬ c = i := by omega
        simp only [updLoop, if_pos hn, if_neg hci]
        rw [ih (c + 1) (by omega) (by omega)]
      · have hm : isMatch tag ⟨.ident n, attrs⟩ = false := by simp [isMatch, hn]
        have hcnt : countMatches (⟨.ident n, attrs⟩ :: rest) tag = countMatches rest tag := by
          simp [countMatches, List.filter_cons, hm]
        rw [hcnt] at hge
        simp only [updLoop, if_neg hn]
        rw [ih c hc hge]

/-- With no ordinal filter, the writer mutates every match, and reports an
update exactly when some element matched. -/
theorem updLoop_none {tag v : String} :
    ∀ (els : List Element) (c : Nat),
      updLoop tag v none els c =
        (els.map (fun el => if isMatch tag el then updateElement v el else el),
         els.any (isMatch tag)) := by
  intro els
  induction els with
  | nil => intro c; rfl
  | cons el rest ih =>
    intro c
    obtain ⟨name, attrs⟩ := el
    cases name with
    | member o p =>
      have hm : isMatch tag ⟨.member o p, attrs⟩ = false := rfl
      simp [updLoop, ih c, hm]
    | ident n =>
      by_cases hn : n = tag
      · have hm : isMatch tag ⟨.ident n, attrs⟩ = true := by simp [isMatch, hn]
        simp [updLoop, if_pos hn, ih (c + 1), hm]
      · have hm : isMatch tag ⟨.ident n, attrs⟩ = false := by simp [isMatch, hn]
        simp [updLoop, if_neg hn, ih c, hm]

/-- A traversal that never matches leaves the tree untouched and reports no
update, for any ordinal argument. -/
theorem updLoop_noMatch {tag v : String} {idx : Option Nat} :
    ∀ (els : List Element) (c : Nat),
      (∀ el ∈ els, isMatch tag el = false) →
      updLoop tag v idx els c = (els, false) := by
  intro els
  induction els with
  | nil => intro c _; rfl
  | cons el rest ih =>
    intro c hall
    have he := hall el (by simp)
    obtain ⟨name, attrs⟩ := el
    cases name with
    | member o p =>
      simp [updLoop, ih c (fun x hx => hall x (by simp [hx]))]
    | ident n =>
      have hn : ¬ n = tag := by simpa [isMatch] using he
      simp only [updLoop, if_neg hn]
      simp [ih c (fun x hx => hall x (by simp [hx]))]

/-! ## The per-element mutation -/

theorem findCN_name : ∀ {attrs : List Attr} {a : Attr},
    findCN attrs = some a → a.name = "className" := by
  intro attrs
  induction attrs with
  | nil => intro a h; exact Option.noConfusion h
  | cons x rest ih =>
    intro a h
    by_cases hx : x.name = "className"
    · simp only [findCN, if_pos hx] at h
      obtain rfl : x = a := by simpa using h
      exact hx
    · simp only [findCN, if_neg hx] at h
      exact ih h

theorem findCN_setFirstCN : ∀ {attrs : List Attr} {a : Attr} (val : AttrValue),
    findCN attrs = some a →
    findCN (setFirstCN attrs val) = some ⟨"className", val⟩ := by
  intro attrs
  induction attrs with
  | nil => intro a val h; exact Option.noConfusion h
  | cons x rest ih =>
    intro a val h
    by_cases hx : x.name = "className"
    · simp [setFirstCN, findCN, if_pos hx, hx]
    · simp only [setFirstCN, if_neg hx, findCN]
      simp only [findCN, if_neg hx] at h
      exact ih val h

theorem setFirstCN_same : ∀ {attrs : List Attr} {a : Attr} {val : AttrValue},
    findCN attrs = some a → a.value = val → setFirstCN attrs val = attrs := by
  intro attrs
  induction attrs with
  | nil => intro a val h _; exact Option.noConfusion h
  | cons x rest ih =>
    intro a val h hv
    by_cases hx : x.name = "className"
    · simp only [findCN, if_pos hx] at h
      obtain rfl : x = a := by simpa using h
      simp [setFirstCN, if_pos hx, ← hv]
    · simp only [findCN, if_neg hx] at h
      simp [setFirstCN, if_neg hx, ih h hv]

theorem findCN_append_of_none : ∀ {attrs : List Attr} (l : List Attr),
    findCN attrs = none → findCN (attrs ++ l) = findCN l := by
  intro attrs
  induction attrs with
  | nil => intro l _; rfl
  | cons x rest ih =>
    intro l h
    by_cases hx : x.name = "className"
    · simp only [findCN, if_pos hx] at h; exact Option.noConfusion h
    · simp only [findCN, if_neg hx] at h
      simp only [List.cons_append, findCN, if_neg hx]
      exact ih l h

theorem updateElement_name (v : String) (el : Element) :
    (updateElement v el).name = el.name := by
  unfold updateElement
  cases findCN el.attrs <;> rfl

theorem isMatch_updateElement (t v : String) (el : Element) :
    isMatch t (updateElement v el) = isMatch t el := by
  unfold isMatch
  rw [updateElement_name]

/-- After the writer touches an element, its `className` attribute holds the
classified new value: the replace-path value when the attribute existed, the
append-path value otherwise. -/
theorem findCN_updateElement (v : String) (el : Element) :
    findCN (updateElement v el).attrs =
      some ⟨"className", match findCN el.attrs with
        | some _ => classifyReplace v
        | none => classifyAppend v⟩ := by
  unfold updateElement
  cases h : findCN el.attrs with
  | some a => simpa using findCN_setFirstCN (classifyReplace v) h
  | none =>
    simp only []
    rw [findCN_append_of_none _ h]
    simp [findCN]

/-! ## Well-formedness preservation -/

theorem setFirstCN_wf : ∀ {attrs : List Attr} {val : AttrValue},
    attrs.all wfAttr = true → wfValue val = true →
    (setFirstCN attrs val).all wfAttr = true := by
  intro attrs
  induction attrs with
  | nil => intro val _ _; rfl
  | cons x rest ih =>
    intro val hall hv
    obtain ⟨hx, hrest⟩ : wfAttr x = true ∧ rest.all wfAttr = true := by
      simpa [List.all_cons, Bool.and_eq_true] using hall
    by_cases hname : x.name = "className"
    · simp only [setFirstCN, if_pos hname, List.all_cons, Bool.and_eq_true]
      refine ⟨?_, hrest⟩
      have : wfId x.name = true := by
        have := by simpa [wfAttr, Bool.and_eq_true] using hx
        exact this.1
      simp [wfAttr, this, hv]
    · simp only [setFirstCN, if_neg hname, List.all_cons, Bool.and_eq_true]
      exact ⟨hx, ih hrest hv⟩

theorem updateElement_wf {v : String} {el : Element}
    (hel : wfElem el = true)
    (hrep : wfValue (classifyReplace v) = true)
    (happ : wfValue (classifyAppend v) = true) :
    wfElem (updateElement v el) = true := by
  obtain ⟨hname, hattrs⟩ : wfName el.name = true ∧ el.attrs.all wfAttr = true := by
    simpa [wfElem, Bool.and_eq_true] using hel
  unfold updateElement
  cases h : findCN el.attrs with
  | some a =>
    simp only [wfElem, Bool.and_eq_true]
    exact ⟨hname, setFirstCN_wf hattrs hrep⟩
  | none =>
    simp only [wfElem, Bool.and_eq_true, List.all_append, List.all_cons]
    refine ⟨hname, hattrs, ?_⟩
    simp [wfAttr, happ, wfId, isIdChar]

theorem updateNthMatch_wf {tag v : String} :
    ∀ {els : List Element} {i : Nat}, wfFile els = true →
    wfValue (classifyReplace v) = true → wfValue (classifyAppend v) = true →
    wfFile (updateNthMatch tag v els i) = true := by
  intro els
  induction els with
  | nil => intro i _ _ _; rfl
  | cons el rest ih =>
    intro i hwf hrep happ
    obtain ⟨hel, hrest⟩ : wfElem el = true ∧ wfFile rest = true := by
      simpa [wfFile, List.all_cons, Bool.and_eq_true] using hwf
    by_cases hm : isMatch tag el = true
    · cases i with
      | zero =>
        have hstep : updateNthMatch tag v (el :: rest) 0 = updateElement v el :: rest := by
          simp [updateNthMatch, hm]
        rw [hstep]
        simp only [wfFile, List.all_cons, Bool.and_eq_true]
        exact ⟨updateElement_wf hel hrep happ, hrest⟩
      | succ k =>
        have hstep : updateNthMatch tag v (el :: rest) (k + 1) =
            el :: updateNthMatch tag v rest k := by
          simp [updateNthMatch, hm]
        rw [hstep]
        simp only [wfFile, List.all_cons, Bool.and_eq_true]
        exact ⟨hel, ih hrest hrep happ⟩
    · rw [Bool.not_eq_true] at hm
      have hstep : updateNthMatch tag v (el :: rest) i = el :: updateNthMatch tag v rest i := by
        simp [updateNthMatch, hm]
      rw [hstep]
      simp only [wfFile, List.all_cons, Bool.and_eq_true]
      exact ⟨hel, ih hrest hrep happ⟩

/-! ## How the indexed mutation moves through the match list -/

theorem nthMatch_updateNthMatch {tag v : String} :
    ∀ (els : List Element) (i j : Nat),
      nthMatch (updateNthMatch tag v els i) tag j =
        if j = i then (nthMatch els tag i).map (updateElement v)
        else nthMatch els tag j := by
  intro els
  induction els with
  | nil =>
    intro i j
    simp only [updateNthMatch, nthMatch, List.filter_nil]
    by_cases hj : j = i <;> simp [hj]
  | cons el rest ih =>
    intro i j
    by_cases hm : isMatch tag el = true
    · cases i with
      | zero =>
        have hstep : updateNthMatch tag v (el :: rest) 0 = updateElement v el :: rest := by
          simp [updateNthMatch, hm]
        have hm2 : isMatch tag (updateElement v el) = true := by
          rw [isMatch_updateElement]; exact hm
        rw [hstep]
        have hfil : List.filter (isMatch tag) (updateElement v el :: rest) =
            updateElement v el :: List.filter (isMatch tag) rest := by
          simp [List.filter_cons, hm2]
        have hfil0 : List.filter (isMatch tag) (el :: rest) =
            el :: List.filter (isMatch tag) rest := by
          simp [List.filter_cons, hm]
        cases j with
        | zero => simp [nthMatch, hfil, hfil0]
        | succ k =>
          rw [if_neg (by omega : ¬ k + 1 = 0)]
          simp [nthMatch, hfil, hfil0]
      | succ m =>
        have hstep : updateNthMatch tag v (el :: rest) (m + 1) =
            el :: updateNthMatch tag v rest m := by
          simp [updateNthMatch, hm]
        rw [hstep]
        have hfil : List.filter (isMatch tag) (el :: updateNthMatch tag v rest m) =
            el :: List.filter (isMatch tag) (updateNthMatch tag v rest m) := by
          simp [List.filter_cons, hm]
        have hfil0 : List.filter (isMatch tag) (el :: rest) =
            el :: List.filter (isMatch tag) rest := by
          simp [List.filter_cons, hm]
        cases j with
        | zero =>
          rw [if_neg (by omega : ¬ (0 : Nat) = m + 1)]
          simp [nthMatch, hfil, hfil0]
        | succ k =>
          have hrec := ih m k
          by_cases hk : k = m
          · subst hk
            rw [if_pos rfl]
            rw [if_pos rfl] at hrec
            simp only [nthMatch, hfil, hfil0, List.getElem?_cons_succ]
            simpa [nthMatch] using hrec
          · rw [if_neg (by omega : ¬ k + 1 = m + 1)]
            rw [if_neg hk] at hrec
            simp only [nthMatch, hfil, hfil0, List.getElem?_cons_succ]
            simpa [nthMatch] using hrec
    · rw [Bool.not_eq_true] at hm
      have hstep : updateNthMatch tag v (el :: rest) i = el :: updateNthMatch tag v rest i := by
        simp [updateNthMatch, hm]
      rw [hstep]
      have hfil : List.filter (isMatch tag) (el :: updateNthMatch tag v rest i) =
          List.filter (isMatch tag) (updateNthMatch tag v rest i) := by
        simp [List.filter_cons, hm]
      have hfil0 : List.filter (isMatch tag) (el :: rest) = List.filter (isMatch tag) rest := by
        simp [List.filter_cons, hm]
      simp only [nthMatch, hfil, hfil0]
      simpa [nthMatch] using ih i j

theorem countMatches_updateNthMatch {tag v : String} :
    ∀ (els : List Element) (i : Nat) (t : String),
      countMatches (updateNthMatch tag v els i) t = countMatches els t := by
  intro els
  induction els with
  | nil => intro i t; rfl
  | cons el rest ih =>
    intro i t
    by_cases hm : isMatch tag el = true
    · cases i with
      | zero =>
        have hstep : updateNthMatch tag v (el :: rest) 0 = updateElement v el :: rest := by
          simp [updateNthMatch, hm]
        rw [hstep]
        simp only [countMatches, List.filter_cons, isMatch_updateElement]
        cases h : isMatch t el <;> simp [h]
      | succ m =>
        have hstep : updateNthMatch tag v (el :: rest) (m + 1) =
            el :: updateNthMatch tag v rest m := by
          simp [updateNthMatch, hm]
        rw [hstep]
        simp only [countMatches, List.filter_cons]
        cases h : isMatch t el <;> simp_all [countMatches]
    · rw [Bool.not_eq_true] at hm
      have hstep : updateNthMatch tag v (el :: rest) i = el :: updateNthMatch tag v rest i := by
        simp [updateNthMatch, hm]
      rw [hstep]
      simp only [countMatches, List.filter_cons]
      cases h : isMatch t el <;> simp_all [countMatches]

/-- If the mutation fixes the targeted element, the whole pass is the
identity. -/
theorem updateNthMatch_id {tag v : String} :
    ∀ (els : List Element) (i : Nat) {el : Element},
      nthMatch els tag i = some el → updateElement v el = el →
      updateNthMatch tag v els i = els := by
  intro els
  induction els with
  | nil => intro i el h _; simp [nthMatch] at h
  | cons e rest ih =>
    intro i el hnth hfix
    by_cases hm : isMatch tag e = true
    · have hfil0 : List.filter (isMatch tag) (e :: rest) =
          e :: List.filter (isMatch tag) rest := by
        simp [List.filter_cons, hm]
      cases i with
      | zero =>
        simp only [nthMatch, hfil0, List.getElem?_cons_zero] at hnth
        obtain rfl : e = el := by simpa using hnth
        simp [updateNthMatch, hm, hfix]
      | succ m =>
        simp only [nthMatch, hfil0, List.getElem?_cons_succ] at hnth
        have := ih m (by simpa [nthMatch] using hnth) hfix
        simp [updateNthMatch, hm, this]
    · rw [Bool.not_eq_true] at hm
      have hfil0 : List.filter (isMatch tag) (e :: rest) = List.filter (isMatch tag) rest := by
        simp [List.filter_cons, hm]
      simp only [nthMatch, hfil0] at hnth
      have := ih i (by simpa [nthMatch] using hnth) hfix
      simp [updateNthMatch, hm, this]

/-! ## Classification of the new value -/

/-- Everything `parseExpression` accepts is well formed. -/
theorem parseExpression_sound {v : String} {e : Expr}
    (h : parseExpression v = some e) : wfExpr e = true := by
  unfold parseExpression at h
  cases h1 : parseExprCore (skipWs v.data) with
  | none => simp only [h1] at h; exact Option.noConfusion h
  | some w =>
    obtain ⟨e', rest⟩ := w
    simp only [h1] at h
    by_cases hrest : skipWs rest = []
    · rw [if_pos hrest] at h
      obtain rfl : e' = e := by simpa using h
      exact parseExprCore_sound h1
    · rw [if_neg hrest] at h; exact Option.noConfusion h

/-- A parsed string-literal primary can only come from a single quote in the
input. -/
theorem parsePrim_str_quote {cs : List Char} {s : String} {r : List Char}
    (h : parsePrim cs = some (.str s, r)) : '\'' ∈ cs := by
  cases cs with
  | nil => exact Option.noConfusion h
  | cons c rest =>
    by_cases hc : c = '\''
    · subst hc; simp
    · simp only [parsePrim, if_neg hc] at h
      cases hti : takeIdent (c :: rest) with
      | none => simp only [hti] at h; exact Option.noConfusion h
      | some w =>
        obtain ⟨n, r'⟩ := w
        simp only [hti] at h
        simp at h

/-- If the new value parses as a plain string literal, it contains a quote. -/
theorem parseExpression_str_quote {v : String} {s : String}
    (h : parseExpression v = some (.prim (.str s))) : '\'' ∈ v.data := by
  unfold parseExpression at h
  cases h1 : parseExprCore (skipWs v.data) with
  | none => simp only [h1] at h; exact Option.noConfusion h
  | some w =>
    obtain ⟨e', rest⟩ := w
    simp only [h1] at h
    by_cases hrest : skipWs rest = []
    · rw [if_pos hrest] at h
      obtain rfl : e' = .prim (.str s) := by simpa using h
      unfold parseExprCore at h1
      cases h2 : parsePrim (skipWs v.data) with
      | none => simp only [h2] at h1; exact Option.noConfusion h1
      | some w2 =>
        obtain ⟨p, rest2⟩ := w2
        simp only [h2] at h1
        cases h3 : expectChar '?' (skipWs rest2) with
        | none =>
          simp only [h3] at h1
          obtain ⟨hp, _⟩ : Expr.prim p = Expr.prim (.str s) ∧ rest2 = rest := by
            simpa using h1
          obtain rfl : p = Prim.str s := by simpa using hp
          have hmem := parsePrim_str_quote h2
          exact (List.dropWhile_sublist isWsChar (l := v.data)).subset hmem
        | some r2 =>
          simp only [h3] at h1
          cases h4 : parsePrim (skipWs r2) with
          | none => simp only [h4] at h1; exact Option.noConfusion h1
          | some w4 =>
            obtain ⟨t, r3⟩ := w4
            simp only [h4] at h1
            cases h5 : expectChar ':' (skipWs r3) with
            | none => simp only [h5] at h1; exact Option.noConfusion h1
            | some r4 =>
              simp only [h5] at h1
              cases h6 : parsePrim (skipWs r4) with
              | none => simp only [h6] at h1; exact Option.noConfusion h1
              | some w6 =>
                obtain ⟨q, r5⟩ := w6
                simp only [h6] at h1
                simp at h1
    · rw [if_neg hrest] at h; exact Option.noConfusion h

/-- With no single quote in the new value, the replace path and append path
classify identically. -/
theorem classify_agree {v : String} (h : '\'' ∉ v.data) :
    classifyReplace v = classifyAppend v := by
  unfold classifyReplace classifyAppend
  cases hp : parseExpression v with
  | none => rfl
  | some e =>
    cases e with
    | prim p =>
      cases p with
      | str s => exact absurd (parseExpression_str_quote hp) h
      | id s => rfl
    | cond c t e => rfl

/-- With no quote at all in the new value, both paths fall back to wrapping
the raw text as a plain literal, unless the value parses as a conditional. -/
theorem classify_fallback {v : String} (h1 : '\'' ∉ v.data)
    (h2 : ∀ c t e, parseExpression v ≠ some (.cond c t e)) :
    classifyReplace v = .lit v ∧ classifyAppend v = .lit v := by
  unfold classifyReplace classifyAppend
  cases hp : parseExpression v with
  | none => exact ⟨rfl, rfl⟩
  | some e =>
    cases e with
    | prim p =>
      cases p with
      | str s => exact absurd (parseExpression_str_quote hp) h1
      | id s => exact ⟨rfl, rfl⟩
    | cond c t e => exact absurd hp (h2 c t e)

/-- With no quote of either kind in the new value, whatever the classifier
produces prints back to a parseable attribute value. -/
theorem classify_wf {v : String} (h1 : '\'' ∉ v.data) (h2 : '"' ∉ v.data) :
    wfValue (classifyReplace v) = true ∧ wfValue (classifyAppend v) = true := by
  unfold classifyReplace classifyAppend
  cases hp : parseExpression v with
  | none =>
    constructor <;> (simp [wfValue, List.all_eq_true]; intro x hx; rintro rfl; exact h2 hx)
  | some e =>
    cases e with
    | prim p =>
      cases p with
      | str s => exact absurd (parseExpression_str_quote hp) h1
      | id s =>
        constructor <;> (simp [wfValue, List.all_eq_true]; intro x hx; rintro rfl; exact h2 hx)
    | cond c t e =>
      have := parseExpression_sound hp
      exact ⟨by simpa [wfValue] using this, by simpa [wfValue] using this⟩

/-! ## Top-level behaviour of the two operations -/

theorem nthMatch_exists {els : List Element} {tag : String} {i : Nat}
    (hi : i < countMatches els tag) : ∃ el, nthMatch els tag i = some el := by
  have hlen : i < (els.filter (isMatch tag)).length := by simpa [countMatches] using hi
  exact ⟨(els.filter (isMatch tag))[i], by simp [nthMatch, List.getElem?_eq_getElem hlen]⟩

/-- Indexed write, ordinal in range: the output is the reprint of the tree
with exactly the match at that ordinal mutated. -/
theorem update_hit {file tag v : String} {i : Nat} {els : List Element}
    (hp : parseFile file = some els) (hi : i < countMatches els tag) :
    updateClassNameWithAST file tag v (some i) =
      .ok (printFile (updateNthMatch tag v els i)) := by
  unfold updateClassNameWithAST
  rw [hp]
  have h := @updLoop_hit tag v i els 0 (by omega) (by simpa using hi)
  rw [Nat.sub_zero] at h
  simp [h]

/-- Indexed write, ordinal out of range: the original text comes back. -/
theorem update_miss {file tag v : String} {i : Nat} {els : List Element}
    (hp : parseFile file = some els) (hi : countMatches els tag ≤ i) :
    updateClassNameWithAST file tag v (some i) = .ok file := by
  unfold updateClassNameWithAST
  rw [hp]
  have h := @updLoop_miss tag v i els 0 (by omega) (by simpa using hi)
  simp [h]

/-- Indexed read of a match that has a `className` attribute. -/
theorem get_found {file tag : String} {i : Nat} {els : List Element} {el : Element} {a : Attr}
    (hp : parseFile file = some els) (hnth : nthMatch els tag i = some el)
    (hcn : findCN el.attrs = some a) :
    getClassNameExpression file tag (some i) = some (renderAttr a) := by
  unfold getClassNameExpression
  rw [hp]
  exact getLoop_found els 0 none el a (by omega) (by simpa using hnth) hcn

/-! ## C7 -/

/-- C7: `updateClass` throws exactly when the original source fails to parse;
on a parseable file where no element matches the tag, or the ordinal exceeds
the number of matches, it returns the original text unchanged and does not
throw. -/
theorem C7_update_throws_only_on_parse_error (s tag v : String) (i : Option Nat) :
    (parseFile s = none → updateClassNameWithAST s tag v i = .error "AST parsing error") ∧
    (∀ els, parseFile s = some els → ∃ out, updateClassNameWithAST s tag v i = .ok out) ∧
    (∀ els, parseFile s = some els →
      (match i with
       | some j => countMatches els tag ≤ j
       | none => countMatches els tag = 0) →
      updateClassNameWithAST s tag v i = .ok s) := by
  refine ⟨fun h => by simp [updateClassNameWithAST, h], fun els h => ?_, fun els h hmiss => ?_⟩
  · unfold updateClassNameWithAST
    rw [h]
    by_cases hb : (updLoop tag v i els 0).2 = true
    · exact ⟨printFile (updLoop tag v i els 0).1, by simp [hb]⟩
    · rw [Bool.not_eq_true] at hb
      exact ⟨s, by simp [hb]⟩
  · cases i with
    | some j => exact update_miss h hmiss
    | none =>
      have hniil : els.filter (isMatch tag) = [] := by
        have : (els.filter (isMatch tag)).length = 0 := by simpa [countMatches] using hmiss
        exact List.length_eq_zero.mp this
      have hany : els.any (isMatch tag) = false := by
        rw [List.any_eq_false]
        intro x hx
        intro hmx
        have : x ∈ els.filter (isMatch tag) := List.mem_filter.mpr ⟨hx, hmx⟩
        simp [hniil] at this
      unfold updateClassNameWithAST
      rw [h]
      simp [updLoop_none els 0, hany]

/-- C7 witness. -/
theorem C7_witness :
    updateClassNameWithAST "<Div />" "NonexistentTag" "x" none = .ok "<Div />" := by
  have h := (C7_update_throws_only_on_parse_error "<Div />" "NonexistentTag" "x" none).2.2
  exact h [⟨.ident "Div", []⟩] (by decide) (by decide)

/-! ## C6 -/

/-- C6 counterexample: a syntactically broken file makes `getClassNameExpression`
return `none` — exactly the same value it returns for a parseable file whose
element has no `className` attribute.  The parse failure is therefore *not*
distinguishable from not-found for the read operation, refuting the claim that
both operations keep them distinguishable. -/
theorem C6_counterexample :
    parseFile "<<<" = none ∧
    getClassNameExpression "<<<" "Div" none = none ∧
    parseFile "<Div />" = some [⟨.ident "Div", []⟩] ∧
    getClassNameExpression "<Div />" "Div" none = none := by
  refine ⟨by decide, by decide, by decide, by decide⟩

/-- C6 (amended): on unparseable input `updateClassNameWithAST` raises an
explicit error, distinguishable from the not-found no-op; but
`getClassNameExpression` catches the parse error and returns `null`, the very
value that also signals an absent attribute. -/
theorem C6_amended_parse_failure (s tag v : String) (i : Option Nat)
    (h : parseFile s = none) :
    updateClassNameWithAST s tag v i = .error "AST parsing error" ∧
    getClassNameExpression s tag i = none :=
  ⟨by simp [updateClassNameWithAST, h], by simp [getClassNameExpression, h]⟩

/-- C6 witness. -/
theorem C6_witness :
    updateClassNameWithAST "<<<" "Div" "x" none = .error "AST parsing error" ∧
    getClassNameExpression "<<<" "Div" none = none :=
  C6_amended_parse_failure "<<<" "Div" "x" none (by decide)

/-! ## C10 -/

/-- C10: elements whose tag is a member/namespaced name (`<Foo.Bar>`) are never
read or modified by either operation.  Two sufficient conditions make the
statement cover the claim: the requested tag is the printed text of a member
name (it contains a dot, which no `JSXIdentifier` can contain, so *no*
element of *any* parseable file matches), or every element of the file
carries a member name (so no tag matches at all).  Either way the write
returns the text unchanged and the read returns `null`. -/
theorem C10_member_tags_never_match (file tag v : String) (i : Option Nat)
    (els : List Element) (hp : parseFile file = some els)
    (hmem : '.' ∈ tag.data ∨ ∀ el ∈ els, isMemberName el.name = true) :
    updateClassNameWithAST file tag v i = .ok file ∧
    getClassNameExpression file tag i = none := by
  have hno : ∀ el ∈ els, isMatch tag el = false := by
    intro el hel
    cases hmem with
    | inr hmem =>
      have hm := hmem el hel
      cases hn : el.name with
      | ident s => rw [hn] at hm; exact absurd hm (by simp [isMemberName])
      | member o p => simp [isMatch, hn]
    | inl hdot =>
      cases hn : el.name with
      | member o p => simp [isMatch, hn]
      | ident n =>
        simp only [isMatch, hn]
        by_cases he : n = tag
        · exfalso
          have hwfel : wfElem el = true :=
            List.all_eq_true.mp (parseFile_wf hp) el hel
          have hwfn : wfId n = true := by
            have : wfName el.name = true := by
              have := by simpa [wfElem, Bool.and_eq_true] using hwfel
              exact this.1
            simpa [wfName, hn] using this
          have hall : ∀ c ∈ n.data, isIdChar c = true := by
            obtain ⟨_, h2⟩ := by simpa [wfId] using hwfn
            exact fun c hc => by simpa using h2 c hc
          have hdotid : isIdChar '.' = true := by
            apply hall
            rw [he]
            exact hdot
          simp [isIdChar] at hdotid
        · simp [he]
  constructor
  · unfold updateClassNameWithAST
    rw [hp]
    simp [updLoop_noMatch els 0 hno]
  · unfold getClassNameExpression
    rw [hp]
    exact getLoop_noMatch els 0 none hno

/-- C10 witness: the file contains `<Foo.Bar />` and the requested tag name is
exactly the printed text `Foo.Bar`; still nothing is read or modified. -/
theorem C10_witness :
    updateClassNameWithAST "<Foo.Bar />" "Foo.Bar" "x" (some 0) = .ok "<Foo.Bar />" ∧
    getClassNameExpression "<Foo.Bar />" "Foo.Bar" (some 0) = none :=
  C10_member_tags_never_match "<Foo.Bar />" "Foo.Bar" "x" (some 0)
    [⟨.member "Foo" "Bar", []⟩] (by decide) (by decide)

/-! ## C2 -/

/-- C2: when the new value parses as a ternary/conditional expression, the
write stores it as an expression container holding the parsed conditional —
covering both the replace path (attribute already present) and the append
path (attribute missing), since nothing here assumes either. -/
theorem C2_ternary_written_as_container (file tag v : String) (i : Nat)
    (els : List Element) (c t e : Prim)
    (hp : parseFile file = some els)
    (hi : i < countMatches els tag)
    (hv : parseExpression v = some (.cond c t e)) :
    ∃ els', updateClassNameWithAST file tag v (some i) = .ok (printFile els') ∧
      ∃ el, nthMatch els' tag i = some el ∧
        findCN el.attrs = some ⟨"className", .container (.cond c t e)⟩ := by
  obtain ⟨el0, hel0⟩ := nthMatch_exists hi
  refine ⟨updateNthMatch tag v els i, update_hit hp hi, updateElement v el0, ?_, ?_⟩
  · rw [nthMatch_updateNthMatch els i i, if_pos rfl, hel0]
    rfl
  · rw [findCN_updateElement]
    cases h : findCN el0.attrs <;> simp [classifyReplace, classifyAppend, hv]

/-- C2 witness: the replace path (`className` already present). -/
theorem C2_witness :
    ∃ els', updateClassNameWithAST "<Div className=\"old\" />" "Div" "x ? 'a' : 'b'"
        (some 0) = .ok (printFile els') ∧
      ∃ el, nthMatch els' "Div" 0 = some el ∧
        findCN el.attrs =
          some ⟨"className", .container (.cond (.id "x") (.str "a") (.str "b"))⟩ :=
  C2_ternary_written_as_container "<Div className=\"old\" />" "Div" "x ? 'a' : 'b'" 0
    [⟨.ident "Div", [⟨"className", .lit "old"⟩]⟩] (.id "x") (.str "a") (.str "b")
    (by decide) (by decide) (by decide)

/-! ## C3 -/

/-- C3 counterexample: with `newValue` = `'abc'` (which parses as a plain
string literal), the replace path stores the *parsed* literal (`abc`) while
the append path stores the *raw text* (`'abc'`, quotes included).  The
classification does not behave the same in the two paths, refuting the claim. -/
theorem C3_counterexample :
    updateClassNameWithAST "<Div className=\"x\" />" "Div" "'abc'" (some 0) =
      .ok "<Div className=\"abc\" />\n" ∧
    updateClassNameWithAST "<Div />" "Div" "'abc'" (some 0) =
      .ok "<Div className=\"'abc'\" />\n" ∧
    ("abc" : String) ≠ "'abc'" := by
  refine ⟨rfl, rfl, by decide⟩

/-- C3 (amended): the write never propagates a parse error of the new value,
and classifies it per path: in the replace path a parsed conditional becomes a
container, a parsed string literal becomes that parsed literal, and anything
else (other shapes, parse failures) becomes the raw text as a literal; in the
append path a parsed conditional becomes a container and *everything* else —
including a parsed string literal — becomes the raw text as a literal. -/
theorem C3_amended_classification (file tag v : String) (i : Nat)
    (els : List Element)
    (hp : parseFile file = some els)
    (hi : i < countMatches els tag) :
    ∃ el0 els', nthMatch els tag i = some el0 ∧
      updateClassNameWithAST file tag v (some i) = .ok (printFile els') ∧
      ∃ el', nthMatch els' tag i = some el' ∧
        findCN el'.attrs = some ⟨"className",
          match findCN el0.attrs, parseExpression v with
          | some _, some (.cond c t e) => .container (.cond c t e)
          | some _, some (.prim (.str s)) => .lit s
          | some _, some (.prim (.id _)) => .lit v
          | some _, none => .lit v
          | none, some (.cond c t e) => .container (.cond c t e)
          | none, some (.prim _) => .lit v
          | none, none => .lit v⟩ := by
  obtain ⟨el0, hel0⟩ := nthMatch_exists hi
  refine ⟨el0, updateNthMatch tag v els i, hel0, update_hit hp hi, updateElement v el0, ?_, ?_⟩
  · rw [nthMatch_updateNthMatch els i i, if_pos rfl, hel0]
    rfl
  · rw [findCN_updateElement]
    cases h : findCN el0.attrs with
    | some a =>
      simp only [classifyReplace]
      cases hv : parseExpression v with
      | none => rfl
      | some e =>
        cases e with
        | prim p => cases p <;> rfl
        | cond c t e => rfl
    | none =>
      simp only [classifyAppend]
      cases hv : parseExpression v with
      | none => rfl
      | some e =>
        cases e with
        | prim p => cases p <;> rfl
        | cond c t e => rfl

/-- C3 witness: the append path on a string-literal new value keeps the raw
quoted text. -/
theorem C3_witness :
    ∃ el0 els', nthMatch [(⟨.ident "Div", []⟩ : Element)] "Div" 0 = some el0 ∧
      updateClassNameWithAST "<Div />" "Div" "'abc'" (some 0) = .ok (printFile els') ∧
      ∃ el', nthMatch els' "Div" 0 = some el' ∧
        findCN el'.attrs = some ⟨"className",
          match findCN el0.attrs, parseExpression "'abc'" with
          | some _, some (.cond c t e) => .container (.cond c t e)
          | some _, some (.prim (.str s)) => .lit s
          | some _, some (.prim (.id _)) => .lit "'abc'"
          | some _, none => .lit "'abc'"
          | none, some (.cond c t e) => .container (.cond c t e)
          | none, some (.prim _) => .lit "'abc'"
          | none, none => .lit "'abc'"⟩ :=
  C3_amended_classification "<Div />" "Div" "'abc'" 0 [⟨.ident "Div", []⟩]
    (by decide) (by decide)

/-! ## C4 -/

/-- C4 counterexample: the printer reprints the *whole* file, so an untouched
element whose original spelling was not canonical (two spaces after `Div`)
changes bytes even though only the 2nd `<Div>` was addressed: the original
text of the 1st element no longer occurs in the output. -/
theorem C4_counterexample :
    updateClassNameWithAST "<Div  className=\"a\" />\n<Div />\n<Div />" "Div" "b" (some 1) =
      .ok "<Div className=\"a\" />\n<Div className=\"b\" />\n<Div />\n" ∧
    containsChars "<Div  className=\"a\" />".data
      "<Div  className=\"a\" />\n<Div />\n<Div />".data = true ∧
    containsChars "<Div  className=\"a\" />".data
      "<Div className=\"a\" />\n<Div className=\"b\" />\n<Div />\n".data = false := by
  refine ⟨rfl, by decide, by decide⟩

/-- C4 (amended): when the original file is exactly the canonical print of its
tree, an indexed write at ordinal 1 of three `<Div>` matches changes only the
2nd occurrence: the 1st and 3rd match are the same elements afterwards (hence
their printed bytes are identical to the original file's), and the 2nd is the
mutated element. -/
theorem C4_amended_ordinal_frame (v : String) (file : String) (els : List Element)
    (hp : parseFile file = some els)
    (_hcanon : file = printFile els)
    (h3 : countMatches els "Div" = 3) :
    ∃ els', updateClassNameWithAST file "Div" v (some 1) = .ok (printFile els') ∧
      nthMatch els' "Div" 0 = nthMatch els "Div" 0 ∧
      nthMatch els' "Div" 2 = nthMatch els "Div" 2 ∧
      nthMatch els' "Div" 1 = (nthMatch els "Div" 1).map (updateElement v) := by
  refine ⟨updateNthMatch "Div" v els 1, update_hit hp (by omega), ?_, ?_, ?_⟩
  · rw [nthMatch_updateNthMatch els 1 0, if_neg (by omega)]
  · rw [nthMatch_updateNthMatch els 1 2, if_neg (by omega)]
  · rw [nthMatch_updateNthMatch els 1 1, if_pos rfl]

/-- C4 witness: a canonical three-`<Div>` file. -/
theorem C4_witness :
    ∃ els', updateClassNameWithAST "<Div />\n<Div />\n<Div />\n" "Div" "x" (some 1) =
        .ok (printFile els') ∧
      nthMatch els' "Div" 0 = nthMatch elsC4 "Div" 0 ∧
      nthMatch els' "Div" 2 = nthMatch elsC4 "Div" 2 ∧
      nthMatch els' "Div" 1 = (nthMatch elsC4 "Div" 1).map (updateElement "x") :=
  C4_amended_ordinal_frame "x" "<Div />\n<Div />\n<Div />\n" elsC4
    (by decide) (by decide) (by decide)

/-! ## C5 -/

/-- C5 counterexample: the reader's running count is *not* incremented for a
visited match that has no `className` attribute.  Here the match at ordinal 0
has no `className`, so per the claim the read at ordinal 0 should act on that
element (and report `none`); instead the traversal visits the next `<Div>` as
well and reports its value. -/
theorem C5_counterexample :
    parseFile "<Div />\n<Div className=\"x\" />" =
      some [⟨.ident "Div", []⟩, ⟨.ident "Div", [⟨"className", .lit "x"⟩]⟩] ∧
    getClassNameExpression "<Div />\n<Div className=\"x\" />" "Div" (some 0) = some "x" := by
  refine ⟨by decide, by decide⟩

/-- C5 (amended): the writer maintains the running count over every match, so
an indexed write acts on exactly the match at the requested ordinal; the
reader does the same only when the selected match has a `className` attribute
— in that case it reads exactly that element (a selected match without the
attribute is not counted and the traversal falls through to later matches,
as the counterexample shows). -/
theorem C5_amended_running_count (file tag v : String) (i : Nat) (els : List Element)
    (hp : parseFile file = some els)
    (hi : i < countMatches els tag) :
    (∃ els', updateClassNameWithAST file tag v (some i) = .ok (printFile els') ∧
      nthMatch els' tag i = (nthMatch els tag i).map (updateElement v) ∧
      ∀ j, j ≠ i → nthMatch els' tag j = nthMatch els tag j) ∧
    (∀ el a, nthMatch els tag i = some el → findCN el.attrs = some a →
      getClassNameExpression file tag (some i) = some (renderAttr a)) := by
  constructor
  · refine ⟨updateNthMatch tag v els i, update_hit hp hi, ?_, ?_⟩
    · rw [nthMatch_updateNthMatch els i i, if_pos rfl]
    · intro j hj
      rw [nthMatch_updateNthMatch els i j, if_neg hj]
  · intro el a hel ha
    exact get_found hp hel ha

/-- C5 witness. -/
theorem C5_witness :
    (∃ els', updateClassNameWithAST "<Div className=\"x\" />\n<Div />" "Div" "y" (some 0) =
        .ok (printFile els') ∧
      nthMatch els' "Div" 0 = (nthMatch elsC5 "Div" 0).map (updateElement "y") ∧
      ∀ j, j ≠ 0 → nthMatch els' "Div" j = nthMatch elsC5 "Div" j) ∧
    (∀ el a, nthMatch elsC5 "Div" 0 = some el → findCN el.attrs = some a →
      getClassNameExpression "<Div className=\"x\" />\n<Div />" "Div" (some 0) =
        some (renderAttr a)) :=
  C5_amended_running_count "<Div className=\"x\" />\n<Div />" "Div" "y" 0 elsC5
    (by decide) (by decide)

/-! ## C9 -/

/-- C9 counterexample: with the ordinal omitted, the read does *not* report
the attribute state of the last matching element.  The last `<Div>` has no
`className` (its state is absent), yet the read reports the first one's
value. -/
theorem C9_counterexample :
    parseFile "<Div className=\"a\" />\n<Div />" =
      some [⟨.ident "Div", [⟨"className", .lit "a"⟩]⟩, ⟨.ident "Div", []⟩] ∧
    findCN (([] : List Attr)) = none ∧
    getClassNameExpression "<Div className=\"a\" />\n<Div />" "Div" none = some "a" := by
  refine ⟨by decide, rfl, by decide⟩

/-- C9 (amended): with `ordinalIndex` omitted and several matches, the read
reports the value of the *last matching element that has a `className`
attribute* (`null` when none has one) — not necessarily the last match — and
the write updates every matching element. -/
theorem C9_amended_omitted_ordinal (file tag v : String) (els : List Element)
    (hp : parseFile file = some els)
    (h2 : 2 ≤ countMatches els tag) :
    getClassNameExpression file tag none = (matchedCNs els tag).getLast?.map renderAttr ∧
    updateClassNameWithAST file tag v none =
      .ok (printFile (els.map (fun el => if isMatch tag el then updateElement v el else el))) := by
  constructor
  · unfold getClassNameExpression
    rw [hp]
    show getLoop tag none els 0 none = _
    rw [getLoop_none els 0 none]
    cases (matchedCNs els tag).getLast? <;> simp
  · have hne : els.filter (isMatch tag) ≠ [] := by
      intro hnil
      have : countMatches els tag = 0 := by simp [countMatches, hnil]
      omega
    obtain ⟨x, hx⟩ := List.exists_mem_of_ne_nil _ hne
    have hany : els.any (isMatch tag) = true :=
      List.any_eq_true.mpr ⟨x, (List.mem_filter.mp hx).1, (List.mem_filter.mp hx).2⟩
    unfold updateClassNameWithAST
    rw [hp]
    simp [updLoop_none els 0, hany]

/-- C9 witness. -/
theorem C9_witness :
    getClassNameExpression "<Div className=\"a\" />\n<Div className=\"b\" />" "Div" none =
      (matchedCNs elsC9 "Div").getLast?.map renderAttr ∧
    updateClassNameWithAST "<Div className=\"a\" />\n<Div className=\"b\" />" "Div" "z" none =
      .ok (printFile (elsC9.map
        (fun el => if isMatch "Div" el then updateElement "z" el else el))) :=
  C9_amended_omitted_ordinal "<Div className=\"a\" />\n<Div className=\"b\" />" "Div" "z"
    elsC9 (by decide) (by decide)

/-! ## C1 -/

/-- C1 counterexample: `a?b:c` contains no quote character, yet reading back
immediately after writing it returns the conditional reprinted with canonical
spacing, `a ? b : c` — not the original string.  The write-then-read
round trip fails for quote-free values that parse as conditionals. -/
theorem C1_counterexample :
    updateClassNameWithAST "<Div className=\"x\" />" "Div" "a?b:c" (some 0) =
      .ok "<Div className=\x7ba ? b : c\x7d />\n" ∧
    getClassNameExpression "<Div className=\x7ba ? b : c\x7d />\n" "Div" (some 0) =
      some "a ? b : c" ∧
    (∀ c ∈ ("a?b:c" : String).data, c ≠ '"' ∧ c ≠ '\'') ∧
    ("a ? b : c" : String) ≠ "a?b:c" := by
  refine ⟨rfl, by decide, by decide, by decide⟩

/-- C1 (amended): for a parseable file, an in-range ordinal, and a new value
containing no quote characters *that does not parse as a conditional
expression*, reading back immediately after writing returns exactly the
written value. -/
theorem C1_amended_write_then_read (file tag v : String) (i : Nat) (els : List Element)
    (hp : parseFile file = some els)
    (hi : i < countMatches els tag)
    (hq1 : '"' ∉ v.data) (hq2 : '\'' ∉ v.data)
    (hnc : isCondParse v = false) :
    ∃ out, updateClassNameWithAST file tag v (some i) = .ok out ∧
      getClassNameExpression out tag (some i) = some v := by
  have hncond : ∀ c t e, parseExpression v ≠ some (.cond c t e) := by
    intro c t e h
    simp [isCondParse, h] at hnc
  obtain ⟨hrep, happ⟩ := classify_fallback hq2 hncond
  obtain ⟨hwrep, hwapp⟩ := classify_wf hq2 hq1
  have hwf := parseFile_wf hp
  have hwf' := @updateNthMatch_wf tag v els i hwf hwrep hwapp
  obtain ⟨el0, hel0⟩ := nthMatch_exists hi
  refine ⟨printFile (updateNthMatch tag v els i), update_hit hp hi, ?_⟩
  have hp2 : parseFile (printFile (updateNthMatch tag v els i)) =
      some (updateNthMatch tag v els i) := parseFile_printFile hwf'
  have hnth : nthMatch (updateNthMatch tag v els i) tag i = some (updateElement v el0) := by
    rw [nthMatch_updateNthMatch els i i, if_pos rfl, hel0]
    rfl
  have hcn : findCN (updateElement v el0).attrs = some ⟨"className", .lit v⟩ := by
    rw [findCN_updateElement]
    cases h : findCN el0.attrs <;> simp [hrep, happ]
  have := get_found hp2 hnth hcn
  simpa [renderAttr] using this

/-- C1 witness. -/
theorem C1_witness :
    ∃ out, updateClassNameWithAST "<Div />" "Div" "p-2" (some 0) = .ok out ∧
      getClassNameExpression out "Div" (some 0) = some "p-2" :=
  C1_amended_write_then_read "<Div />" "Div" "p-2" 0 [⟨.ident "Div", []⟩]
    (by decide) (by decide) (by decide) (by decide) (by decide)

/-! ## C8 -/

/-- C8 counterexample: with `v = 'a'` (a quoted string literal), the first
write takes the append path and stores the raw text `'a'`; the second write
takes the replace path, re-parses `'a'` as a string literal and stores the
*unquoted* `a`.  Applying the write twice differs from applying it once. -/
theorem C8_counterexample :
    updateClassNameWithAST "<Div />" "Div" "'a'" (some 0) =
      .ok "<Div className=\"'a'\" />\n" ∧
    updateClassNameWithAST "<Div className=\"'a'\" />\n" "Div" "'a'" (some 0) =
      .ok "<Div className=\"a\" />\n" ∧
    ("<Div className=\"a\" />\n" : String) ≠ "<Div className=\"'a'\" />\n" := by
  refine ⟨rfl, rfl, by decide⟩

/-- C8 (amended): the write is idempotent for new values containing no quote
characters (for quoted values, a string-literal `v` is stored raw by the
append path but unquoted by the replace path, as the counterexample shows). -/
theorem C8_amended_idempotent (file tag v : String) (i : Nat) (els : List Element)
    (hp : parseFile file = some els)
    (hq1 : '"' ∉ v.data) (hq2 : '\'' ∉ v.data) :
    ∃ out, updateClassNameWithAST file tag v (some i) = .ok out ∧
      updateClassNameWithAST out tag v (some i) = .ok out := by
  by_cases hi : i < countMatches els tag
  · obtain ⟨hwrep, hwapp⟩ := classify_wf hq2 hq1
    have hagree := classify_agree hq2
    have hwf := parseFile_wf hp
    have hwf' := @updateNthMatch_wf tag v els i hwf hwrep hwapp
    obtain ⟨el0, hel0⟩ := nthMatch_exists hi
    refine ⟨printFile (updateNthMatch tag v els i), update_hit hp hi, ?_⟩
    have hp2 : parseFile (printFile (updateNthMatch tag v els i)) =
        some (updateNthMatch tag v els i) := parseFile_printFile hwf'
    have hcount : i < countMatches (updateNthMatch tag v els i) tag := by
      rw [countMatches_updateNthMatch]
      exact hi
    have h2 := update_hit (v := v) hp2 hcount
    have hnth1 : nthMatch (updateNthMatch tag v els i) tag i = some (updateElement v el0) := by
      rw [nthMatch_updateNthMatch els i i, if_pos rfl, hel0]
      rfl
    have hfixgen : ∀ el1, findCN el1.attrs = some ⟨"className", classifyReplace v⟩ →
        updateElement v el1 = el1 := by
      intro el1 hcn1
      unfold updateElement
      simp only [hcn1]
      rw [setFirstCN_same hcn1 rfl]
    have hcn : findCN (updateElement v el0).attrs =
        some ⟨"className", classifyReplace v⟩ := by
      rw [findCN_updateElement]
      cases h : findCN el0.attrs <;> simp [hagree]
    have hid : updateNthMatch tag v (updateNthMatch tag v els i) i =
        updateNthMatch tag v els i :=
      updateNthMatch_id _ i hnth1 (hfixgen _ hcn)
    rw [hid] at h2
    exact h2
  · push_neg at hi
    exact ⟨file, update_miss hp hi, update_miss hp hi⟩

/-- C8 witness. -/
theorem C8_witness :
    ∃ out, updateClassNameWithAST "<Div />" "Div" "b" (some 0) = .ok out ∧
      updateClassNameWithAST out "Div" "b" (some 0) = .ok out :=
  C8_amended_idempotent "<Div />" "Div" "b" 0 [⟨.ident "Div", []⟩]
    (by decide) (by decide) (by decide)

end Seam
